import Mathlib

set_option maxRecDepth 4000

/-!
Verification of the enrichment engine (`src/lib/utils/enricher.ts`).

The definitions below are a shallow embedding of the TypeScript source:
decoded JSON-like value trees become the mutual inductive `DVal`,
the enrichment map becomes a lookup function `String → Option DVal`
(respectively association lists for the orchestrator), byte buffers
become `List Nat` with values below 256, and the external collaborators
(account-info resolver, metadata service, label lookup, base-58 encoder)
become explicit function parameters.
-/
/-! ## Module constants (enricher.ts lines 5-10) -/
def TOKEN_PROGRAM_ID : String := "TokenkegQfeZyiNwAJbNbGKPFXCWuBvf9Ss623VQ5DA"

def TOKEN_2022_PROGRAM_ID : String := "TokenzQdBNbLqP5VEhdkAS6EPFLC1PHnBqCXEpPxuEb"

def SUPABASE_TOKEN_ICON_URL : String :=
  "https://xcdlwgvabmruuularsvn.supabase.co/storage/v1/object/public/p0-tokens"

/-! ## Decoded value trees

A decoded account record is an arbitrary JSON-like tree: strings,
numbers, booleans, null, arrays and keyed objects.  `injectEnrichment`
replaces some string leaves by enrichment objects, which in JavaScript
are plain objects; they are represented here as `dobj` nodes. -/
mutual

inductive DVal where
  | dstr (s : String)
  | dnum (n : Int)
  | dbool (b : Bool)
  | dnull
  | darr (xs : DValList)
  | dobj (fs : DFields)

inductive DValList where
  | nil
  | cons (hd : DVal) (tl : DValList)

inductive DFields where
  | nil
  | cons (key : String) (val : DVal) (tl : DFields)

end

deriving instance DecidableEq for DVal, DValList, DFields

/-- First field with the given key, mirroring JavaScript property lookup. -/
def DFields.lookupField : DFields → String → Option DVal
  | .nil, _ => none
  | .cons k v tl, key => if k = key then some v else tl.lookupField key

/-- Membership test mirroring the JavaScript `key in data` check. -/
def DFields.hasField (fs : DFields) (key : String) : Bool :=
  (fs.lookupField key).isSome

/-! ## The legacy parenthesized-address pattern

`injectEnrichment` also recognizes strings whose tail is a parenthesized
address: `data.match(/\((.*)\)$/)`.  Without flags, `.` does not match a
line terminator and `$` anchors at the very end, so the regex matches at
the leftmost `(` that is followed only by line-terminator-free text up
to a final `)`, and captures everything strictly between that `(` and
the final character. -/
def isLineTerm (c : Char) : Bool :=
  c = Char.ofNat 10 || c = Char.ofNat 13 || c = Char.ofNat 0x2028 || c = Char.ofNat 0x2029

def parenGo : List Char → Option (List Char)
  | [] => none
  | c :: rest =>
    if c = '(' ∧ rest ≠ [] ∧ rest.getLast? = some ')' ∧ rest.dropLast.all (fun d => !isLineTerm d)
    then some rest.dropLast
    else parenGo rest

/-- Capture group of `s.match(/\((.*)\)$/)`, or `none` when there is no match. -/
def jsParenCapture (s : String) : Option String :=
  (parenGo s.toList).map String.mk

/-! ## stripEnrichment (enricher.ts lines 326-357) -/
/-- Detection used by `stripEnrichment`: the node is an object carrying
`__isEnriched === true` and a `pubkey` property. -/
def isEnrichedShape (fs : DFields) : Bool :=
  fs.lookupField "__isEnriched" = some (.dbool true) && fs.hasField "pubkey"

mutual

def stripEnrichment : DVal → DVal
  | .dobj fs =>
    if isEnrichedShape fs then
      match fs.lookupField "pubkey" with
      | some v => v
      | none => .dobj (stripFields fs)
    else .dobj (stripFields fs)
  | .darr xs => .darr (stripList xs)
  | v => v

def stripList : DValList → DValList
  | .nil => .nil
  | .cons hd tl => .cons (stripEnrichment hd) (stripList tl)

def stripFields : DFields → DFields
  | .nil => .nil
  | .cons k v tl => .cons k (stripEnrichment v) (stripFields tl)

end

/-! ## injectEnrichment (enricher.ts lines 362-392)

The enrichment map is modelled by its lookup function: `m s = some v`
corresponds to `map.has(s)` with `map.get(s) = v`. -/
mutual

def injectEnrichment (m : String → Option DVal) : DVal → DVal
  | .dstr s =>
    match m s with
    | some v => v
    | none =>
      match jsParenCapture s with
      | some inner =>
        match m inner with
        | some v => v
        | none => .dstr s
      | none => .dstr s
  | .darr xs => .darr (injectList m xs)
  | .dobj fs => .dobj (injectFields m fs)
  | v => v

def injectList (m : String → Option DVal) : DValList → DValList
  | .nil => .nil
  | .cons hd tl => .cons (injectEnrichment m hd) (injectList m tl)

def injectFields (m : String → Option DVal) : DFields → DFields
  | .nil => .nil
  | .cons k v tl => .cons k (injectEnrichment m v) (injectFields m tl)

end

/-! ## Amount formatting (enricher.ts lines 71-85 and 240-255)

`BN` values are arbitrary-precision unsigned integers, modelled as `Nat`;
strings under construction are modelled as `List Char`. -/
/-- Decimal digits of a positive number, most significant first; the first
argument is recursion fuel (any fuel above the digit count is enough, and
the digit count of `n` is at most `n`). -/
def decCharsGo : Nat → Nat → List Char
  | 0, _ => []
  | _ + 1, 0 => []
  | fuel + 1, n + 1 => decCharsGo fuel ((n + 1) / 10) ++ [Nat.digitChar ((n + 1) % 10)]

/-- Decimal rendering of a `BN`, as in `amount.toString()`. -/
def decChars (n : Nat) : List Char :=
  if n = 0 then ['0'] else decCharsGo (n + 1) n

/-- Strip the maximal run of trailing zeros: `fracStr.replace(/0+$/, "")`. -/
def rstripZeros (l : List Char) : List Char :=
  (l.reverse.dropWhile (fun c => c = '0')).reverse

/-- The helper `formatAmount(amount, decimals)` (lines 71-85). -/
def formatAmount (amount : Nat) (decimals : Nat) : List Char :=
  if decimals = 0 then decChars amount
  else
    let divisor := 10 ^ decimals
    let integerPart := amount / divisor
    let fractionalPart := amount % divisor
    let fracStr := rstripZeros (List.leftpad decimals '0' (decChars fractionalPart))
    if 0 < fracStr.length then decChars integerPart ++ '.' :: fracStr
    else decChars integerPart

/-- Split at the first `.`, mirroring `indexOf(".")`/`substring` in the
caller; when there is no dot the whole string is the integer part. -/
def splitDot : List Char → List Char × List Char
  | [] => ([], [])
  | c :: rest =>
    if c = '.' then ([], rest)
    else (c :: (splitDot rest).1, (splitDot rest).2)

/-- Thousands grouping of a digit string: the replacement
`intPart.replace(/\B(?=(\d{3})+(?!\d))/g, ",")` inserts a comma exactly
before every position from which a positive multiple of three digits
remains. -/
def commaGroup : List Char → List Char
  | [] => []
  | [a] => [a]
  | [a, b] => [a, b]
  | [a, b, c] => [a, b, c]
  | a :: rest =>
    if rest.length % 3 = 0 then a :: ',' :: commaGroup rest
    else a :: commaGroup rest

/-- The balance-rendering block of `fetchEnrichmentMap` (lines 240-255):
format, split at the dot, comma-group the integer part, reattach the
fractional part when non-empty. -/
def formatBalance (amount : Nat) (decimals : Nat) : List Char :=
  let s := formatAmount amount decimals
  let p := splitDot s
  let intWithCommas := commaGroup p.1
  if p.2 = [] then intWithCommas else intWithCommas ++ '.' :: p.2

/-- Modelled from the spec's words (section 4.3 of the specification, and
claim C4): quotient comma-grouped, remainder zero-padded to exactly
`decimals` digits, trailing zeros stripped, decimal point omitted when the
stripped fraction is empty.  Compared against `formatBalance` (the code). -/
def claimFormat (rawAmount : Nat) (decimals : Nat) : List Char :=
  if decimals = 0 then commaGroup (decChars rawAmount)
  else
    let q := rawAmount / 10 ^ decimals
    let frac := rstripZeros (List.leftpad decimals '0' (decChars (rawAmount % 10 ^ decimals)))
    if frac = [] then commaGroup (decChars q)
    else commaGroup (decChars q) ++ '.' :: frac

/-! ## Account classification (enricher.ts lines 123-191) -/
/-- Raw account data as delivered by the resolver: a base64 payload is
abstracted by its decode outcome (`ok bytes`, or `bad` when `atob`
throws). -/
inductive B64 where
  | ok (bytes : List Nat)
  | bad
deriving DecidableEq

/-- `base64ToBytes` (lines 30-42): a decode failure is caught and yields
an empty buffer. -/
def base64ToBytes : B64 → List Nat
  | .ok bs => bs
  | .bad => []

structure AccountInfo where
  dataB : B64
  owner : String
deriving DecidableEq

/-- JavaScript `ToInt32`: bitwise operators produce a signed 32-bit result. -/
def toInt32 (n : Nat) : Int :=
  if n % 2 ^ 32 < 2 ^ 31 then ((n % 2 ^ 32 : Nat) : Int)
  else ((n % 2 ^ 32 : Nat) : Int) - 2 ^ 32

/-- The `MintAuthorityOption` heuristic (lines 152-163): read the first
four bytes as a little-endian 32-bit integer (bytes are below 256, so the
bitwise ors are a plain sum) and require the value to be 0 or 1 with bytes
1, 2, 3 all zero. -/
def mintOptionHeuristic (b : List Nat) : Bool :=
  let opt := toInt32 (b.getD 0 0 + 2 ^ 8 * b.getD 1 0 + 2 ^ 16 * b.getD 2 0 + 2 ^ 24 * b.getD 3 0)
  (opt == 0 || opt == 1) && b.getD 1 0 == 0 && b.getD 2 0 == 0 && b.getD 3 0 == 0

inductive Classified where
  | tokenHolding
  | mintRecord
  | unclassified
deriving DecidableEq

/-- The classification branch structure of lines 130-171: `tokenHolding`
and `mintRecord` correspond to the `isTokenAccount` / `isMint` flags, and
`unclassified` to both flags staying false. -/
def classify (owner : String) (b : List Nat) : Classified :=
  if owner = TOKEN_PROGRAM_ID ∨ owner = TOKEN_2022_PROGRAM_ID then
    if b.length = 165 then .tokenHolding
    else if b.length = 82 then .mintRecord
    else if owner = TOKEN_2022_PROGRAM_ID then
      if 82 ≤ b.length ∧ b.length < 165 then .mintRecord
      else if 165 < b.length then
        if mintOptionHeuristic b then .mintRecord else .tokenHolding
      else .unclassified
    else .unclassified
  else .unclassified

/-- Little-endian interpretation of a byte list, as `new BN(bytes, "le")`. -/
def leBytes : List Nat → Nat
  | [] => 0
  | b :: rest => b + 256 * leBytes rest

/-- What lines 127-189 do with one `(pubkey, info)` pair: nothing for a
null or unclassified entry, otherwise record a token account (with mint
from bytes 0..32 and the little-endian amount from bytes 64..72) or a
mint account.  `enc` is the external base-58 encoder. -/
inductive AccountAction where
  | skip
  | tokenAcct (mint : String) (amount : Nat)
  | mintAcct
deriving DecidableEq

def accountAction (enc : List Nat → String) (info : Option AccountInfo) : AccountAction :=
  match info with
  | none => .skip
  | some i =>
    let b := base64ToBytes i.dataB
    match classify i.owner b with
    | .tokenHolding => .tokenAcct (enc (b.take 32)) (leBytes ((b.drop 64).take 8))
    | .mintRecord => .mintAcct
    | .unclassified => .skip

/-! ## Chunking and map primitives -/
/-- `for (let k = 0; k < list.length; k += size) chunks.push(list.slice(k, k + size))`,
written with explicit recursion fuel so that it is structurally recursive;
`fuel = l.length` always suffices since each step drops at least one
element. -/
def chunkGo (size : Nat) : Nat → List String → List (List String)
  | 0, _ => []
  | _ + 1, [] => []
  | fuel + 1, a :: rest => (a :: rest).take size :: chunkGo size fuel ((a :: rest).drop size)

def chunksOf (size : Nat) (l : List String) : List (List String) :=
  chunkGo size l.length l

/-- `Map.set`: overwrite in place when the key exists, append otherwise. -/
def mapSet {β : Type} : List (String × β) → String → β → List (String × β)
  | [], k, v => [(k, v)]
  | (k0, v0) :: rest, k, v =>
    if k0 = k then (k0, v) :: rest else (k0, v0) :: mapSet rest k v

/-- `Map.get`: the value at the first (unique) occurrence of the key. -/
def lookupKey {β : Type} : List (String × β) → String → Option β
  | [], _ => none
  | (k0, v0) :: rest, k => if k0 = k then some v0 else lookupKey rest k

/-- `Set.add` on a deduplicated list kept in insertion order. -/
def insertNew (l : List String) (s : String) : List String :=
  if s ∈ l then l else l ++ [s]

/-! ## The per-chunk classification loop (lines 118-191) -/
structure TokenAcc where
  pubkey : String
  mint : String
  amount : Nat
deriving DecidableEq

def classifyStep (enc : List Nat → String)
    (acc : List TokenAcc × List String × List String)
    (pr : String × Option AccountInfo) : List TokenAcc × List String × List String :=
  match accountAction enc pr.2 with
  | .skip => acc
  | .tokenAcct m a => (acc.1 ++ [⟨pr.1, m, a⟩], acc.2.1, insertNew acc.2.2 m)
  | .mintAcct => (acc.1, acc.2.1 ++ [pr.1], insertNew acc.2.2 pr.1)

/-- Accumulates `tokenAccounts`, `mintAccounts` and `uniqueMints` (in
first-occurrence order, as iteration over a JavaScript `Set`). -/
def classifyChunk (enc : List Nat → String)
    (prs : List (String × Option AccountInfo)) :
    List TokenAcc × List String × List String :=
  prs.foldl (classifyStep enc) ([], [], [])

/-! ## Metadata batch fetch (lines 196-231) -/
structure MetaPayload where
  symbol : Option String
  decimals : Option Nat
  name : Option String
deriving DecidableEq

structure MintInfo where
  symbol : String
  decimals : Nat
  logoURI : String
  name : Option String
deriving DecidableEq

def iconUrl (mint : String) : String :=
  SUPABASE_TOKEN_ICON_URL ++ "/" ++ mint ++ ".png"

/-- Lines 218-223: `symbol: meta.symbol || "Unknown"` treats a missing or
empty symbol as unknown, `decimals: meta.decimals || 0` defaults a missing
count to zero, and the icon is derived from the mint alone. -/
def storeMeta (mint : String) (meta : MetaPayload) : MintInfo :=
  { symbol :=
      match meta.symbol with
      | some s => if s = "" then "Unknown" else s
      | none => "Unknown"
    decimals := meta.decimals.getD 0
    logoURI := iconUrl mint
    name := meta.name }

/-- The inner loop of a successful response (lines 215-225): for each
requested mint with a truthy payload entry, store its metadata. -/
def storeBatch (f : String → Option MetaPayload)
    (mim : List (String × MintInfo)) (batch : List String) : List (String × MintInfo) :=
  batch.foldl (fun acc mint =>
    match f mint with
    | some meta => mapSet acc mint (storeMeta mint meta)
    | none => acc) mim

/-- One iteration of the batch loop (lines 208-231).  `metaResp batch =
none` collapses every failure branch — a thrown fetch, `!res.ok`, a
falsy `json.success` or missing `json.data` — all of which leave the map
untouched; a successful response is the per-mint payload function. -/
def applyBatch (metaResp : List String → Option (String → Option MetaPayload))
    (mim : List (String × MintInfo)) (batch : List String) : List (String × MintInfo) :=
  match metaResp batch with
  | none => mim
  | some f => storeBatch f mim batch

def fetchMintInfo (metaResp : List String → Option (String → Option MetaPayload))
    (mints : List String) : List (String × MintInfo) :=
  (chunksOf 50 mints).foldl (applyBatch metaResp) []

/-- Default used when a mint is absent from `mintInfoMap` (lines 236-238
and 275-277). -/
def defaultInfo (mint : String) : MintInfo :=
  { symbol := "Unknown", decimals := 0, logoURI := iconUrl mint, name := none }

def lookupInfo (mim : List (String × MintInfo)) (mint : String) : MintInfo :=
  (lookupKey mim mint).getD (defaultInfo mint)

/-! ## Enrichment entries (lines 256-320) -/
inductive EType where
  | token
  | labeled
deriving DecidableEq

structure Enriched where
  etype : Option EType
  pubkey : String
  mint : Option String
  symbol : Option String
  decimals : Option Nat
  balance : Option String
  logoURI : Option String
  name : Option String
  label : Option String
deriving DecidableEq

abbrev EMap := List (String × Enriched)

def glabelOf (glabel : Option (String → Option String)) (p : String) : Option String :=
  match glabel with
  | some g => g p
  | none => none

def tokenEntry (p mint : String) (amount : Nat) (info : MintInfo) (lab : Option String) :
    Enriched :=
  { etype := some .token, pubkey := p, mint := some mint, symbol := some info.symbol,
    decimals := some info.decimals,
    balance := some (String.mk (formatBalance amount info.decimals)),
    logoURI := some info.logoURI, name := info.name, label := lab }

def mintEntry (p : String) (info : MintInfo) (lab : Option String) : Enriched :=
  { etype := some .token, pubkey := p, mint := some p, symbol := some info.symbol,
    decimals := some info.decimals, balance := none,
    logoURI := some info.logoURI, name := info.name, label := lab }

def labeledEntry (p lab : String) : Enriched :=
  { etype := some .labeled, pubkey := p, mint := none, symbol := none, decimals := none,
    balance := none, logoURI := none, name := none, label := some lab }

def enrichTokens (glabel : Option (String → Option String))
    (mim : List (String × MintInfo)) (m : EMap) (tas : List TokenAcc) : EMap :=
  tas.foldl (fun acc ta =>
    mapSet acc ta.pubkey
      (tokenEntry ta.pubkey ta.mint ta.amount (lookupInfo mim ta.mint)
        (glabelOf glabel ta.pubkey))) m

def enrichMints (glabel : Option (String → Option String))
    (mim : List (String × MintInfo)) (m : EMap) (mas : List String) : EMap :=
  mas.foldl (fun acc mp =>
    mapSet acc mp (mintEntry mp (lookupInfo mim mp) (glabelOf glabel mp))) m

/-! ## The orchestrator (lines 88-321) -/
/-- Lines 101-110: resolve a 100-address chunk; a thrown
`fetchAccountInfo` is caught and replaced by an all-null array.  The pairs
align each address with its account info positionally. -/
def accountPairs (resolver : List String → Option (List (Option AccountInfo)))
    (chunk : List String) : List (String × Option AccountInfo) :=
  match resolver chunk with
  | some infos => chunk.zip infos
  | none => chunk.zip (List.replicate chunk.length none)

/-- The body of the outer 100-address loop: classify the chunk; when no
mint is referenced, `continue`; otherwise fetch metadata for the chunk's
mints and write token entries then mint entries. -/
def processChunk (enc : List Nat → String)
    (resolver : List String → Option (List (Option AccountInfo)))
    (metaResp : List String → Option (String → Option MetaPayload))
    (glabel : Option (String → Option String))
    (m : EMap) (chunk : List String) : EMap :=
  let c := classifyChunk enc (accountPairs resolver chunk)
  if c.2.2 = [] then m
  else
    let mim := fetchMintInfo metaResp c.2.2
    enrichMints glabel mim (enrichTokens glabel mim m c.1) c.2.1

/-- The map as it stands after the outer loop, before the label pass. -/
def preLabel (enc : List Nat → String)
    (resolver : List String → Option (List (Option AccountInfo)))
    (metaResp : List String → Option (String → Option MetaPayload))
    (glabel : Option (String → Option String))
    (pubkeys : List String) : EMap :=
  (chunksOf 100 pubkeys).foldl (processChunk enc resolver metaResp glabel) []

/-- One iteration of the label pass (lines 296-317): insert a labeled
entry for an absent address with a truthy label, or attach the label to an
existing entry; the empty string is falsy and is skipped in both arms. -/
def labelStep (g : String → Option String) (m : EMap) (p : String) : EMap :=
  match lookupKey m p with
  | none =>
    match g p with
    | some lab => if lab = "" then m else mapSet m p (labeledEntry p lab)
    | none => m
  | some e =>
    match g p with
    | some lab => if lab = "" then m else mapSet m p { e with label := some lab }
    | none => m

def labelPass (glabel : Option (String → Option String)) (pubkeys : List String)
    (m : EMap) : EMap :=
  match glabel with
  | none => m
  | some g => pubkeys.foldl (labelStep g) m

/-- `fetchEnrichmentMap` (lines 88-321), with the external collaborators
as parameters: `enc` is the base-58 encoder, `resolver` the account-info
service, `metaResp` the metadata service, `glabel` the optional label
lookup.  `pubkeys` is the deduplicated address list in insertion order. -/
def fetchEnrichmentMap (enc : List Nat → String)
    (resolver : List String → Option (List (Option AccountInfo)))
    (metaResp : List String → Option (String → Option MetaPayload))
    (glabel : Option (String → Option String))
    (pubkeys : List String) : EMap :=
  if pubkeys = [] then []
  else labelPass glabel pubkeys (preLabel enc resolver metaResp glabel pubkeys)

/-! ## Classifier lemmas (claims C2, C5) -/
/-- The first four bytes read as an unsigned little-endian 32-bit value,
as the claim states the heuristic. -/
def leU32 (b : List Nat) : Nat :=
  b.getD 0 0 + 2 ^ 8 * b.getD 1 0 + 2 ^ 16 * b.getD 2 0 + 2 ^ 24 * b.getD 3 0

/-! ## Round-trip lemmas (claims C1, C3) -/
/-- The value is an annotation object carrying `__isEnriched: true` and
`pubkey: k`; every value the builder stores under key `k` has this shape. -/
def isAnnFor (v : DVal) (k : String) : Prop :=
  ∃ fs, v = .dobj fs ∧ fs.lookupField "__isEnriched" = some (.dbool true) ∧
    fs.lookupField "pubkey" = some (.dstr k)

def WfMap (m : String → Option DVal) : Prop :=
  ∀ k v, m k = some v → isAnnFor v k

mutual

def cleanV (m : String → Option DVal) : DVal → Bool
  | .dstr s =>
    match m s with
    | some _ => true
    | none =>
      match jsParenCapture s with
      | some inner => (m inner).isNone
      | none => true
  | .darr xs => cleanL m xs
  | .dobj fs => !isEnrichedShape fs && cleanF m fs
  | _ => true

def cleanL (m : String → Option DVal) : DValList → Bool
  | .nil => true
  | .cons hd tl => cleanV m hd && cleanL m tl

def cleanF (m : String → Option DVal) : DFields → Bool
  | .nil => true
  | .cons _ v tl => cleanV m v && cleanF m tl

end

/-- Annotation object for address "A", with its pubkey equal to its key. -/
def annA : DVal :=
  .dobj (.cons "__isEnriched" (.dbool true) (.cons "pubkey" (.dstr "A") .nil))

def exMapA : String → Option DVal := fun s => if s = "A" then some annA else none

/-- Annotation object whose pubkey avoids every key of `exMapZ`. -/
def annZ : DVal :=
  .dobj (.cons "__isEnriched" (.dbool true) (.cons "pubkey" (.dstr "zz") .nil))

def exMapZ : String → Option DVal := fun s => if s = "A" then some annZ else none

def mints120 : List String := (List.range 120).map (fun n => toString n)

/-! ## Classification-loop characterization (claims C7-C10)

`tokensOf` and `mintsOf` spell out, by structural recursion, which token
and mint accounts the fold of `classifyStep` accumulates; the lemmas
below prove they coincide with the fold. -/
def tokensOf (enc : List Nat → String) : List (String × Option AccountInfo) → List TokenAcc
  | [] => []
  | pr :: rest =>
    match accountAction enc pr.2 with
    | .tokenAcct m a => ⟨pr.1, m, a⟩ :: tokensOf enc rest
    | _ => tokensOf enc rest

def mintsOf (enc : List Nat → String) : List (String × Option AccountInfo) → List String
  | [] => []
  | pr :: rest =>
    match accountAction enc pr.2 with
    | .mintAcct => pr.1 :: mintsOf enc rest
    | _ => mintsOf enc rest

/-! ## Label pass characterization (claims C7-C9) -/
/-- What one label-pass iteration leaves at its own key, as a function of
the current entry: insert a labeled entry for an absent key with a truthy
label, attach the label to a present entry, and do nothing otherwise. -/
def labelOutcome (g : String → Option String) (p : String) (cur : Option Enriched) :
    Option Enriched :=
  match cur with
  | none =>
    match g p with
    | some lab => if lab = "" then none else some (labeledEntry p lab)
    | none => none
  | some e =>
    match g p with
    | some lab => if lab = "" then some e else some { e with label := some lab }
    | none => some e

def gTreasury : String → Option String :=
  fun p => if p = "B" then some "Treasury" else none

def gEmpty : String → Option String := fun p => if p = "B" then some "" else none

def bytes165 : List Nat := List.replicate 165 0

def encM : List Nat → String := fun _ => "M"

def resolverTok : List String → Option (List (Option AccountInfo)) :=
  fun _ => some [some (AccountInfo.mk (.ok bytes165) TOKEN_PROGRAM_ID)]

def fTok : String → Option MetaPayload :=
  fun m => if m = "M" then some ⟨some "TOK", some 2, some "Token"⟩ else none

def metaRespTok : List String → Option (String → Option MetaPayload) :=
  fun _ => some fTok

def fEmptySym : String → Option MetaPayload :=
  fun m => if m = "M" then some ⟨some "", some 0, none⟩ else none

def metaRespEmptySym : List String → Option (String → Option MetaPayload) :=
  fun _ => some fEmptySym

/-! ## Formatter lemmas (claim C4) -/
theorem decCharsGo_no_dot : ∀ fuel n, '.' ∉ decCharsGo fuel n := by
  intro fuel
  induction fuel with
  | zero => intro n; simp [decCharsGo]
  | succ f ih =>
    intro n
    cases n with
    | zero => simp [decCharsGo]
    | succ m =>
      simp only [decCharsGo, List.mem_append, List.mem_singleton]
      rintro (h | h)
      · exact ih _ h
      · have hlt : (m + 1) % 10 < 10 := Nat.mod_lt _ (by norm_num)
        have hd : ∀ k < 10, Nat.digitChar k ≠ '.' := by decide
        exact hd _ hlt h.symm

theorem decChars_no_dot (n : Nat) : '.' ∉ decChars n := by
  unfold decChars
  split
  · decide
  · exact decCharsGo_no_dot _ _

theorem splitDot_no_dot : ∀ l : List Char, '.' ∉ l → splitDot l = (l, [])
  | [], _ => rfl
  | c :: rest, h => by
    have hc : ¬ c = '.' := by
      intro hc; exact h (by simp [hc])
    have ih := splitDot_no_dot rest (by intro hm; exact h (by simp [hm]))
    simp [splitDot, hc, ih]

theorem splitDot_append : ∀ a b : List Char, '.' ∉ a → splitDot (a ++ '.' :: b) = (a, b)
  | [], _, _ => by simp [splitDot]
  | c :: rest, b, h => by
    have hc : ¬ c = '.' := by
      intro hc; exact h (by simp [hc])
    have ih := splitDot_append rest b (by intro hm; exact h (by simp [hm]))
    simp [splitDot, hc, ih]

theorem formatBalance_eq_claimFormat (r d : Nat) : formatBalance r d = claimFormat r d := by
  by_cases hd : d = 0
  · subst hd
    simp [formatBalance, formatAmount, claimFormat, splitDot_no_dot _ (decChars_no_dot r)]
  · simp only [formatBalance, formatAmount, claimFormat]
    rw [if_neg hd, if_neg hd]
    by_cases hf : rstripZeros (List.leftpad d '0' (decChars (r % 10 ^ d))) = []
    · rw [hf]
      norm_num
      rw [splitDot_no_dot _ (decChars_no_dot (r / 10 ^ d))]
      simp
    · rw [if_pos (List.length_pos.mpr hf), if_neg hf,
        splitDot_append _ _ (decChars_no_dot (r / 10 ^ d))]
      dsimp only
      rw [if_neg hf]

/-- C4: the rendered balance is the comma-grouped integer quotient by
`10 ^ decimals`, followed by the zero-padded, trailing-zero-stripped
remainder when that is non-empty (no grouping in the fraction, dot omitted
for an empty fraction), and for `decimals = 0` just the comma-grouped
decimal string; in particular the three example renderings hold. -/
theorem formatBalance_correct :
    (∀ rawAmount decimals : Nat,
      formatBalance rawAmount decimals = claimFormat rawAmount decimals) ∧
    formatBalance 1234567 2 = "12,345.67".toList ∧
    formatBalance 1000000 0 = "1,000,000".toList ∧
    formatBalance 100 3 = "0.1".toList :=
  ⟨formatBalance_eq_claimFormat, by decide, by decide, by decide⟩

theorem toInt32_small (n : Nat) (h : n < 2 ^ 31) : toInt32 n = n := by
  unfold toInt32
  rw [Nat.mod_eq_of_lt (lt_trans h (by norm_num))]
  rw [if_pos h]

theorem getD_lt_of_forall {b : List Nat} (hb : ∀ x ∈ b, x < 256) {j : Nat}
    (hj : j < b.length) : b.getD j 0 < 256 := by
  rw [List.getD_eq_getElem?_getD, List.getElem?_eq_getElem hj]
  exact hb _ (List.getElem_mem hj)

theorem mintOptionHeuristic_iff (b : List Nat) (h0 : b.getD 0 0 < 256) :
    mintOptionHeuristic b = true ↔
      ((leU32 b = 0 ∨ leU32 b = 1) ∧
        b.getD 1 0 = 0 ∧ b.getD 2 0 = 0 ∧ b.getD 3 0 = 0) := by
  unfold mintOptionHeuristic leU32
  simp only [Bool.and_eq_true, Bool.or_eq_true, beq_iff_eq]
  constructor
  · rintro ⟨⟨⟨hopt, h1⟩, h2⟩, h3⟩
    rw [h1, h2, h3] at hopt
    simp only [mul_zero, add_zero] at hopt
    rw [toInt32_small _ (lt_trans h0 (by norm_num))] at hopt
    refine ⟨?_, h1, h2, h3⟩
    rw [h1, h2, h3]
    simp only [mul_zero, add_zero]
    exact_mod_cast hopt
  · rintro ⟨hopt, h1, h2, h3⟩
    rw [h1, h2, h3] at hopt
    simp only [mul_zero, add_zero] at hopt
    refine ⟨⟨⟨?_, h1⟩, h2⟩, h3⟩
    rw [h1, h2, h3]
    simp only [mul_zero, add_zero]
    rw [toInt32_small _ (lt_trans h0 (by norm_num))]
    exact_mod_cast hopt

/-- C2: the classification decision table.  An unrecognized owner is
`unclassified`; 165 bytes yield a token holding and 82 bytes a mint for
either recognized owner; under the fixed-layout owner every other length
is `unclassified`; under the extension-capable owner lengths in `[82,165)`
are mints, lengths below 82 (in particular 0) are `unclassified`, and
above 165 the little-endian heuristic on the first four bytes decides. -/
theorem classify_decision_table (owner : String) (b : List Nat)
    (hb : ∀ x ∈ b, x < 256) :
    (owner ≠ TOKEN_PROGRAM_ID ∧ owner ≠ TOKEN_2022_PROGRAM_ID →
      classify owner b = .unclassified) ∧
    ((owner = TOKEN_PROGRAM_ID ∨ owner = TOKEN_2022_PROGRAM_ID) →
      (b.length = 165 → classify owner b = .tokenHolding) ∧
      (b.length = 82 → classify owner b = .mintRecord)) ∧
    (owner = TOKEN_PROGRAM_ID → b.length ≠ 165 → b.length ≠ 82 →
      classify owner b = .unclassified) ∧
    (owner = TOKEN_2022_PROGRAM_ID → 82 ≤ b.length → b.length < 165 →
      classify owner b = .mintRecord) ∧
    (owner = TOKEN_2022_PROGRAM_ID → b.length < 82 →
      classify owner b = .unclassified) ∧
    (b.length = 0 → classify owner b = .unclassified) ∧
    (owner = TOKEN_2022_PROGRAM_ID → 165 < b.length →
      (classify owner b = .mintRecord ↔
        ((leU32 b = 0 ∨ leU32 b = 1) ∧
          b.getD 1 0 = 0 ∧ b.getD 2 0 = 0 ∧ b.getD 3 0 = 0)) ∧
      (¬ ((leU32 b = 0 ∨ leU32 b = 1) ∧
          b.getD 1 0 = 0 ∧ b.getD 2 0 = 0 ∧ b.getD 3 0 = 0) →
        classify owner b = .tokenHolding)) := by
  have hAB : TOKEN_PROGRAM_ID ≠ TOKEN_2022_PROGRAM_ID := by decide
  refine ⟨?_, ?_, ?_, ?_, ?_, ?_, ?_⟩
  · rintro ⟨h1, h2⟩
    unfold classify
    rw [if_neg (by tauto)]
  · intro hrec
    constructor
    · intro h165
      unfold classify
      rw [if_pos hrec, if_pos h165]
    · intro h82
      unfold classify
      rw [if_pos hrec, if_neg (by omega), if_pos h82]
  · intro hA h165 h82
    subst hA
    unfold classify
    rw [if_pos (Or.inl rfl), if_neg h165, if_neg h82, if_neg hAB]
  · intro hB hge hlt
    subst hB
    by_cases h82 : b.length = 82
    · unfold classify
      rw [if_pos (Or.inr rfl), if_neg (by omega), if_pos h82]
    · unfold classify
      rw [if_pos (Or.inr rfl), if_neg (by omega), if_neg h82, if_pos rfl,
        if_pos ⟨hge, hlt⟩]
  · intro hB hlt
    subst hB
    unfold classify
    rw [if_pos (Or.inr rfl), if_neg (by omega), if_neg (by omega), if_pos rfl,
      if_neg (by omega), if_neg (by omega)]
  · intro h0
    by_cases hrec : owner = TOKEN_PROGRAM_ID ∨ owner = TOKEN_2022_PROGRAM_ID
    · rcases hrec with hA | hB
      · subst hA
        unfold classify
        rw [if_pos (Or.inl rfl), if_neg (by omega), if_neg (by omega), if_neg hAB]
      · subst hB
        unfold classify
        rw [if_pos (Or.inr rfl), if_neg (by omega), if_neg (by omega), if_pos rfl,
          if_neg (by omega), if_neg (by omega)]
    · unfold classify
      rw [if_neg hrec]
  · intro hB hgt
    subst hB
    have h0 : b.getD 0 0 < 256 := getD_lt_of_forall hb (by omega)
    have hiff := mintOptionHeuristic_iff b h0
    have hcls : classify TOKEN_2022_PROGRAM_ID b =
        (if mintOptionHeuristic b then .mintRecord else .tokenHolding) := by
      unfold classify
      rw [if_pos (Or.inr rfl), if_neg (by omega), if_neg (by omega), if_pos rfl,
        if_neg (by omega), if_pos hgt]
    constructor
    · rw [hcls]
      constructor
      · intro hmr
        by_cases hh : mintOptionHeuristic b
        · exact hiff.mp hh
        · rw [if_neg (by simp [hh])] at hmr
          exact absurd hmr (by simp)
      · intro hcond
        rw [if_pos (hiff.mpr hcond)]
    · intro hcond
      rw [hcls, if_neg (fun hh => hcond (hiff.mp hh))]

/-- Witness for the decision table: a 166-byte buffer of 9s under the
extension-capable owner fails the heuristic and is a token holding. -/
theorem classify_decision_table_witness :
    classify TOKEN_2022_PROGRAM_ID (List.replicate 166 9) = .tokenHolding :=
  ((classify_decision_table TOKEN_2022_PROGRAM_ID (List.replicate 166 9)
    (by simp)).2.2.2.2.2.2 rfl (by simp)).2 (by decide)

theorem classify_tokenHolding_length {owner : String} {b : List Nat}
    (h : classify owner b = .tokenHolding) : 165 ≤ b.length := by
  unfold classify at h
  split_ifs at h <;> simp_all
  omega

theorem take_eight : ∀ l : List Nat, 8 ≤ l.length →
    l.take 8 = [l.getD 0 0, l.getD 1 0, l.getD 2 0, l.getD 3 0,
      l.getD 4 0, l.getD 5 0, l.getD 6 0, l.getD 7 0]
  | _ :: _ :: _ :: _ :: _ :: _ :: _ :: _ :: _, _ => rfl
  | [], h | [_], h | [_, _], h | [_, _, _], h | [_, _, _, _], h
  | [_, _, _, _, _], h | [_, _, _, _, _, _], h | [_, _, _, _, _, _, _], h => by
    simp at h

theorem getD_drop (l : List Nat) (n i : Nat) :
    (l.drop n).getD i 0 = l.getD (n + i) 0 := by
  simp [List.getD_eq_getElem?_getD, List.getElem?_drop]

theorem drop64_take8 (l : List Nat) (h : 72 ≤ l.length) :
    (l.drop 64).take 8 = [l.getD 64 0, l.getD 65 0, l.getD 66 0, l.getD 67 0,
      l.getD 68 0, l.getD 69 0, l.getD 70 0, l.getD 71 0] := by
  have hlen : 8 ≤ (l.drop 64).length := by
    rw [List.length_drop]; omega
  rw [take_eight _ hlen]
  simp [getD_drop]

/-- C5: a buffer classified as a token holding is processed into a token
account whose mint is the base-58 encoding of bytes 0..32 and whose raw
amount is the unsigned 64-bit little-endian integer at bytes 64..72; the
amount stays below `2 ^ 64` and lives in `Nat`, so later scaling by
`10 ^ decimals` cannot overflow. -/
theorem tokenHolding_extraction (enc : List Nat → String) (i : AccountInfo)
    (hb : ∀ x ∈ base64ToBytes i.dataB, x < 256)
    (hcls : classify i.owner (base64ToBytes i.dataB) = .tokenHolding) :
    accountAction enc (some i) =
      .tokenAcct (enc ((base64ToBytes i.dataB).take 32))
        (leBytes (((base64ToBytes i.dataB).drop 64).take 8)) ∧
    leBytes (((base64ToBytes i.dataB).drop 64).take 8) =
      (base64ToBytes i.dataB).getD 64 0 +
      2 ^ 8 * (base64ToBytes i.dataB).getD 65 0 +
      2 ^ 16 * (base64ToBytes i.dataB).getD 66 0 +
      2 ^ 24 * (base64ToBytes i.dataB).getD 67 0 +
      2 ^ 32 * (base64ToBytes i.dataB).getD 68 0 +
      2 ^ 40 * (base64ToBytes i.dataB).getD 69 0 +
      2 ^ 48 * (base64ToBytes i.dataB).getD 70 0 +
      2 ^ 56 * (base64ToBytes i.dataB).getD 71 0 ∧
    leBytes (((base64ToBytes i.dataB).drop 64).take 8) < 2 ^ 64 := by
  have hlen : 165 ≤ (base64ToBytes i.dataB).length := classify_tokenHolding_length hcls
  have heq := drop64_take8 (base64ToBytes i.dataB) (by omega)
  refine ⟨?_, ?_, ?_⟩
  · simp [accountAction, hcls]
  · rw [heq]
    simp only [leBytes]
    ring
  · rw [heq]
    simp only [leBytes]
    have h64 := getD_lt_of_forall hb (j := 64) (by omega)
    have h65 := getD_lt_of_forall hb (j := 65) (by omega)
    have h66 := getD_lt_of_forall hb (j := 66) (by omega)
    have h67 := getD_lt_of_forall hb (j := 67) (by omega)
    have h68 := getD_lt_of_forall hb (j := 68) (by omega)
    have h69 := getD_lt_of_forall hb (j := 69) (by omega)
    have h70 := getD_lt_of_forall hb (j := 70) (by omega)
    have h71 := getD_lt_of_forall hb (j := 71) (by omega)
    omega

/-- Witness: a concrete 165-byte buffer owned by the fixed-layout program
extracts an amount below `2 ^ 64`. -/
theorem tokenHolding_extraction_witness :
    leBytes (((base64ToBytes (AccountInfo.mk (.ok (List.replicate 165 3))
      TOKEN_PROGRAM_ID).dataB).drop 64).take 8) < 2 ^ 64 :=
  (tokenHolding_extraction (fun _ => "M")
    (AccountInfo.mk (.ok (List.replicate 165 3)) TOKEN_PROGRAM_ID)
    (by
      intro x hx
      simp only [base64ToBytes] at hx
      have := List.eq_of_mem_replicate hx
      omega)
    (by decide)).2.2

theorem lookupField_injectFields (m : String → Option DVal) :
    ∀ (fs : DFields) (k : String),
      (injectFields m fs).lookupField k = (fs.lookupField k).map (injectEnrichment m)
  | .nil, _ => rfl
  | .cons k0 v tl, k => by
    by_cases hk : k0 = k
    · simp [injectFields, DFields.lookupField, hk]
    · simp [injectFields, DFields.lookupField, hk, lookupField_injectFields m tl k]

theorem injectEnrichment_eq_dbool_true (m : String → Option DVal) (hwf : WfMap m)
    (v : DVal) (h : injectEnrichment m v = .dbool true) : v = .dbool true := by
  cases v with
  | dstr s =>
    exfalso
    simp only [injectEnrichment] at h
    split at h
    · rename_i w hm
      obtain ⟨fs, hfs, -, -⟩ := hwf s w hm
      rw [hfs] at h
      exact DVal.noConfusion h
    · split at h
      · split at h
        · rename_i w hm2
          obtain ⟨fs, hfs, -, -⟩ := hwf _ w hm2
          rw [hfs] at h
          exact DVal.noConfusion h
        · exact DVal.noConfusion h
      · exact DVal.noConfusion h
  | dbool b => simpa [injectEnrichment] using h
  | dnum n => simp [injectEnrichment] at h
  | dnull => simp [injectEnrichment] at h
  | darr xs => simp [injectEnrichment] at h
  | dobj fs => simp [injectEnrichment] at h

theorem isEnrichedShape_injectFields_true (m : String → Option DVal) (hwf : WfMap m)
    (fs : DFields) (h : isEnrichedShape (injectFields m fs) = true) :
    isEnrichedShape fs = true := by
  unfold isEnrichedShape DFields.hasField at h ⊢
  rw [lookupField_injectFields, lookupField_injectFields] at h
  simp only [Bool.and_eq_true, decide_eq_true_eq] at h ⊢
  obtain ⟨h1, h2⟩ := h
  cases he : fs.lookupField "__isEnriched" with
  | none => rw [he] at h1; exact absurd h1 (by simp)
  | some x =>
    rw [he] at h1
    have hx : injectEnrichment m x = .dbool true := by simpa using h1
    cases hp : fs.lookupField "pubkey" with
    | none => rw [hp] at h2; exact absurd h2 (by simp)
    | some y =>
      constructor
      · rw [injectEnrichment_eq_dbool_true m hwf x hx]
      · rfl

theorem isEnrichedShape_injectFields_false (m : String → Option DVal) (hwf : WfMap m)
    (fs : DFields) (h : isEnrichedShape fs = false) :
    isEnrichedShape (injectFields m fs) = false := by
  cases hh : isEnrichedShape (injectFields m fs) with
  | false => rfl
  | true => exact absurd (isEnrichedShape_injectFields_true m hwf fs hh) (by simp [h])

mutual

theorem strip_inject_val (m : String → Option DVal) (hwf : WfMap m) :
    ∀ v : DVal, cleanV m v = true → stripEnrichment (injectEnrichment m v) = v
  | .dstr s, hc => by
    cases hm : m s with
    | some w =>
      obtain ⟨fs, hfs, he, hp⟩ := hwf s w hm
      have hinj : injectEnrichment m (.dstr s) = w := by
        simp only [injectEnrichment, hm]
      rw [hinj, hfs]
      have hshape : isEnrichedShape fs = true := by
        simp [isEnrichedShape, DFields.hasField, he, hp]
      simp only [stripEnrichment]
      rw [if_pos hshape, hp]
    | none =>
      have hinj : injectEnrichment m (.dstr s) = .dstr s := by
        cases hcap : jsParenCapture s with
        | none => simp only [injectEnrichment, hm, hcap]
        | some inner =>
          have hcn : m inner = none := by
            have hc2 := hc
            simp only [cleanV] at hc2
            rw [hm, hcap] at hc2
            simpa using hc2
          simp only [injectEnrichment, hm, hcap, hcn]
      rw [hinj]
      rfl
  | .dnum _, _ => rfl
  | .dbool _, _ => rfl
  | .dnull, _ => rfl
  | .darr xs, hc => by
    have hc2 : cleanL m xs = true := by simpa [cleanV] using hc
    simp only [injectEnrichment, stripEnrichment]
    rw [strip_inject_list m hwf xs hc2]
  | .dobj fs, hc => by
    have hc2 : isEnrichedShape fs = false ∧ cleanF m fs = true := by
      simpa [cleanV] using hc
    simp only [injectEnrichment, stripEnrichment]
    rw [if_neg (by simp [isEnrichedShape_injectFields_false m hwf fs hc2.1]),
      strip_inject_fields m hwf fs hc2.2]

theorem strip_inject_list (m : String → Option DVal) (hwf : WfMap m) :
    ∀ xs : DValList, cleanL m xs = true → stripList (injectList m xs) = xs
  | .nil, _ => rfl
  | .cons hd tl, hc => by
    have h1 : cleanV m hd = true ∧ cleanL m tl = true := by simpa [cleanL] using hc
    simp only [injectList, stripList]
    rw [strip_inject_val m hwf hd h1.1, strip_inject_list m hwf tl h1.2]

theorem strip_inject_fields (m : String → Option DVal) (hwf : WfMap m) :
    ∀ fs : DFields, cleanF m fs = true → stripFields (injectFields m fs) = fs
  | .nil, _ => rfl
  | .cons k v tl, hc => by
    have h1 : cleanV m v = true ∧ cleanF m tl = true := by simpa [cleanF] using hc
    simp only [injectFields, stripFields]
    rw [strip_inject_val m hwf v h1.1, strip_inject_fields m hwf tl h1.2]

end

/-- C1 (amended): for a well-formed enrichment map — each stored value an
annotation object whose `pubkey` is its own key, as the builder produces —
and a tree containing no annotation-shaped object and no string leaf whose
trailing parenthesized inner text is a key of the map, stripping after
injecting is the identity: every leaf that is a key of the map is restored
to its original string and every other leaf is byte-for-byte unchanged.
The extra parenthesized-leaf carve-out is forced by the legacy pattern
`/\((.*)\)$/` (see the counterexample). -/
theorem strip_inject_roundtrip (m : String → Option DVal) (T : DVal)
    (hwf : WfMap m) (hclean : cleanV m T = true) :
    stripEnrichment (injectEnrichment m T) = T :=
  strip_inject_val m hwf T hclean

/-- Witness for C1: a two-leaf array, one leaf a key of the map and one
not, survives the round trip unchanged. -/
theorem strip_inject_roundtrip_witness :
    stripEnrichment (injectEnrichment exMapA
        (.darr (.cons (.dstr "A") (.cons (.dstr "zz") .nil)))) =
      .darr (.cons (.dstr "A") (.cons (.dstr "zz") .nil)) :=
  strip_inject_roundtrip exMapA _
    (by
      intro k v h
      by_cases hk : k = "A"
      · subst hk
        simp only [exMapA, if_pos] at h
        obtain rfl := Option.some.inj h
        exact ⟨_, rfl, by decide, by decide⟩
      · simp [exMapA, hk] at h)
    (by decide)

/-- C1 counterexample: the leaf `"x(A)"` is not a key of the map, yet the
legacy parenthesized match injects the annotation stored for `"A"`, and
stripping then yields `"A"` — the leaf is not byte-for-byte unchanged. -/
theorem strip_inject_paren_counterexample :
    exMapA "x(A)" = none ∧
    stripEnrichment (injectEnrichment exMapA (.dstr "x(A)")) ≠ .dstr "x(A)" ∧
    stripEnrichment (injectEnrichment exMapA (.dstr "x(A)")) = .dstr "A" :=
  ⟨by decide, by decide, by decide⟩

mutual

theorem inject_idem_val (m : String → Option DVal)
    (hfix : ∀ k v, m k = some v → injectEnrichment m v = v) :
    ∀ v : DVal, injectEnrichment m (injectEnrichment m v) = injectEnrichment m v
  | .dstr s => by
    cases hm : m s with
    | some w =>
      have h1 : injectEnrichment m (.dstr s) = w := by
        simp only [injectEnrichment, hm]
      rw [h1]
      exact hfix s w hm
    | none =>
      cases hcap : jsParenCapture s with
      | some inner =>
        cases hmi : m inner with
        | some w =>
          have h1 : injectEnrichment m (.dstr s) = w := by
            simp only [injectEnrichment, hm, hcap, hmi]
          rw [h1]
          exact hfix inner w hmi
        | none =>
          have h1 : injectEnrichment m (.dstr s) = .dstr s := by
            simp only [injectEnrichment, hm, hcap, hmi]
          rw [h1]
          exact h1
      | none =>
        have h1 : injectEnrichment m (.dstr s) = .dstr s := by
          simp only [injectEnrichment, hm, hcap]
        rw [h1]
        exact h1
  | .dnum _ => rfl
  | .dbool _ => rfl
  | .dnull => rfl
  | .darr xs => by
    simp only [injectEnrichment]
    rw [inject_idem_list m hfix xs]
  | .dobj fs => by
    simp only [injectEnrichment]
    rw [inject_idem_fields m hfix fs]

theorem inject_idem_list (m : String → Option DVal)
    (hfix : ∀ k v, m k = some v → injectEnrichment m v = v) :
    ∀ xs : DValList, injectList m (injectList m xs) = injectList m xs
  | .nil => rfl
  | .cons hd tl => by
    simp only [injectList]
    rw [inject_idem_val m hfix hd, inject_idem_list m hfix tl]

theorem inject_idem_fields (m : String → Option DVal)
    (hfix : ∀ k v, m k = some v → injectEnrichment m v = v) :
    ∀ fs : DFields, injectFields m (injectFields m fs) = injectFields m fs
  | .nil => rfl
  | .cons k v tl => by
    simp only [injectFields]
    rw [inject_idem_val m hfix v, inject_idem_fields m hfix tl]

end

/-- C3 (amended): the inject rewrite is idempotent for maps whose stored
values are fixed points of the rewrite, i.e. annotations containing no
string that is — or parenthesized-wraps — a key of the map.  For the maps
the builder actually produces the stored annotation's `pubkey` field is
itself a key, a second inject rewrites inside the annotation, and
idempotence fails (see the counterexample). -/
theorem injectEnrichment_idempotent (m : String → Option DVal) (T : DVal)
    (hfix : ∀ k v, m k = some v → injectEnrichment m v = v) :
    injectEnrichment m (injectEnrichment m T) = injectEnrichment m T :=
  inject_idem_val m hfix T

/-- Witness for the amended C3 at a concrete fixed-point map. -/
theorem injectEnrichment_idempotent_witness :
    injectEnrichment exMapZ (injectEnrichment exMapZ (.dstr "A")) =
      injectEnrichment exMapZ (.dstr "A") :=
  injectEnrichment_idempotent exMapZ (.dstr "A")
    (by
      intro k v h
      by_cases hk : k = "A"
      · subst hk
        simp only [exMapZ, if_pos] at h
        obtain rfl := Option.some.inj h
        decide
      · simp [exMapZ, hk] at h)

/-- C3 counterexample: with the builder-shaped map sending "A" to an
annotation whose own pubkey is "A", a second inject rewrites the `pubkey`
field inside the annotation, so inject is not idempotent as claimed. -/
theorem injectEnrichment_not_idempotent :
    injectEnrichment exMapA (injectEnrichment exMapA (.dstr "A")) ≠
      injectEnrichment exMapA (.dstr "A") := by decide

/-! ## Map and chunk primitives (claims C6-C10) -/
theorem mapSet_nil {β : Type} (k : String) (v : β) : mapSet [] k v = [(k, v)] := rfl

theorem mapSet_cons_self {β : Type} (k : String) (v0 v : β) (rest : List (String × β)) :
    mapSet ((k, v0) :: rest) k v = (k, v) :: rest := by
  simp [mapSet]

theorem mapSet_cons_ne {β : Type} (k0 k : String) (v0 v : β) (rest : List (String × β))
    (h : k0 ≠ k) : mapSet ((k0, v0) :: rest) k v = (k0, v0) :: mapSet rest k v := by
  simp [mapSet, h]

theorem lookupKey_mapSet_self {β : Type} :
    ∀ (m : List (String × β)) (k : String) (v : β),
      lookupKey (mapSet m k v) k = some v
  | [], k, v => by simp [mapSet, lookupKey]
  | (k0, v0) :: rest, k, v => by
    by_cases hk : k0 = k
    · subst hk
      rw [mapSet_cons_self]
      simp [lookupKey]
    · rw [mapSet_cons_ne _ _ _ _ _ hk]
      simp only [lookupKey, if_neg hk]
      exact lookupKey_mapSet_self rest k v

theorem lookupKey_mapSet_ne {β : Type} :
    ∀ (m : List (String × β)) (k k' : String) (v : β), k' ≠ k →
      lookupKey (mapSet m k v) k' = lookupKey m k'
  | [], k, k', v, h => by
    simp only [mapSet_nil, lookupKey]
    rw [if_neg (fun hh => h hh.symm)]
  | (k0, v0) :: rest, k, k', v, h => by
    by_cases hk : k0 = k
    · subst hk
      rw [mapSet_cons_self]
      simp only [lookupKey]
      rw [if_neg (fun hh => h hh.symm), if_neg (fun hh => h hh.symm)]
    · rw [mapSet_cons_ne _ _ _ _ _ hk]
      simp only [lookupKey]
      by_cases hk' : k0 = k'
      · rw [if_pos hk', if_pos hk']
      · rw [if_neg hk', if_neg hk']
        exact lookupKey_mapSet_ne rest k k' v h

theorem mem_mapSet {β : Type} :
    ∀ (m : List (String × β)) (k : String) (v : β) (p : String) (e : β),
      (p, e) ∈ mapSet m k v → (p, e) ∈ m ∨ (p = k ∧ e = v)
  | [], k, v, p, e, h => by
    rw [mapSet_nil, List.mem_singleton] at h
    exact Or.inr ⟨congrArg Prod.fst h, congrArg Prod.snd h⟩
  | (k0, v0) :: rest, k, v, p, e, h => by
    by_cases hk : k0 = k
    · subst hk
      rw [mapSet_cons_self] at h
      rcases List.mem_cons.mp h with h2 | h2
      · exact Or.inr ⟨congrArg Prod.fst h2, congrArg Prod.snd h2⟩
      · exact Or.inl (List.mem_cons_of_mem _ h2)
    · rw [mapSet_cons_ne _ _ _ _ _ hk] at h
      rcases List.mem_cons.mp h with h2 | h2
      · exact Or.inl (by rw [h2]; exact List.mem_cons_self _ _)
      · rcases mem_mapSet rest k v p e h2 with h3 | h3
        · exact Or.inl (List.mem_cons_of_mem _ h3)
        · exact Or.inr h3

theorem mem_of_lookupKey {β : Type} :
    ∀ (l : List (String × β)) (k : String) (v : β),
      lookupKey l k = some v → (k, v) ∈ l
  | [], k, v, h => by simp [lookupKey] at h
  | (k0, v0) :: rest, k, v, h => by
    simp only [lookupKey] at h
    by_cases hk : k0 = k
    · rw [if_pos hk] at h
      cases h
      rw [← hk]
      exact List.mem_cons_self _ _
    · rw [if_neg hk] at h
      exact List.mem_cons_of_mem _ (mem_of_lookupKey rest k v h)

theorem chunkGo_nil (size fuel : Nat) : chunkGo size fuel [] = [] := by
  cases fuel <;> rfl

theorem chunkGo_cons_of_ne_nil (size fuel : Nat) (l : List String) (h : l ≠ []) :
    chunkGo size (fuel + 1) l = l.take size :: chunkGo size fuel (l.drop size) := by
  obtain ⟨a, t, rfl⟩ := List.exists_cons_of_ne_nil h
  rfl

theorem chunkGo_flatten (size : Nat) (hs : 0 < size) :
    ∀ (fuel : Nat) (l : List String), l.length ≤ fuel →
      (chunkGo size fuel l).flatten = l := by
  intro fuel
  induction fuel with
  | zero =>
    intro l hl
    rw [List.eq_nil_of_length_eq_zero (Nat.le_zero.mp hl), chunkGo_nil]
    rfl
  | succ f ih =>
    intro l hl
    by_cases hn : l = []
    · rw [hn, chunkGo_nil]
      rfl
    · rw [chunkGo_cons_of_ne_nil size f l hn]
      have hlen : (l.drop size).length ≤ f := by
        rw [List.length_drop]
        have : l.length ≠ 0 := fun h0 => hn (List.eq_nil_of_length_eq_zero h0)
        omega
      simp only [List.flatten_cons, ih (l.drop size) hlen]
      exact List.take_append_drop size l

theorem chunksOf_flatten (size : Nat) (hs : 0 < size) (l : List String) :
    (chunksOf size l).flatten = l :=
  chunkGo_flatten size hs l.length l le_rfl

theorem chunkGo_length_le (size : Nat) :
    ∀ (fuel : Nat) (l : List String), ∀ C ∈ chunkGo size fuel l, C.length ≤ size := by
  intro fuel
  induction fuel with
  | zero => intro l C hC; simp [chunkGo] at hC
  | succ f ih =>
    intro l C hC
    by_cases hn : l = []
    · rw [hn, chunkGo_nil] at hC
      simp at hC
    · rw [chunkGo_cons_of_ne_nil size f l hn] at hC
      rcases List.mem_cons.mp hC with h | h
      · rw [h, List.length_take]
        omega
      · exact ih (l.drop size) C h

theorem chunksOf_sizes_120 (l : List String) (h : l.length = 120) :
    (chunksOf 50 l).map List.length = [50, 50, 20] := by
  have h1 : l ≠ [] := by
    intro hn; rw [hn] at h; simp at h
  have h2 : l.drop 50 ≠ [] := by
    intro hn
    have := congrArg List.length hn
    rw [List.length_drop, h] at this
    simp at this
  have h3 : (l.drop 50).drop 50 ≠ [] := by
    intro hn
    have := congrArg List.length hn
    rw [List.length_drop, List.length_drop, h] at this
    simp at this
  have h4 : (((l.drop 50).drop 50).drop 50) = [] := by
    refine List.eq_nil_of_length_eq_zero ?_
    rw [List.length_drop, List.length_drop, List.length_drop, h]
  unfold chunksOf
  rw [h, show (120 : Nat) = 119 + 1 from rfl, chunkGo_cons_of_ne_nil _ _ _ h1,
    show (119 : Nat) = 118 + 1 from rfl, chunkGo_cons_of_ne_nil _ _ _ h2,
    show (118 : Nat) = 117 + 1 from rfl, chunkGo_cons_of_ne_nil _ _ _ h3,
    h4, chunkGo_nil]
  simp [List.length_take, List.length_drop, h]

/-! ## Metadata fetch characterization (claim C6) -/
theorem lookupKey_storeBatch_not_mem (f : String → Option MetaPayload) (p : String) :
    ∀ (batch : List String) (mim : List (String × MintInfo)), p ∉ batch →
      lookupKey (storeBatch f mim batch) p = lookupKey mim p
  | [], mim, _ => rfl
  | q :: rest, mim, hp => by
    have hq : p ≠ q := fun h => hp (by rw [h]; exact List.mem_cons_self _ _)
    have hrest : p ∉ rest := fun h => hp (List.mem_cons_of_mem _ h)
    simp only [storeBatch, List.foldl_cons]
    cases hf : f q with
    | none => exact lookupKey_storeBatch_not_mem f p rest mim hrest
    | some meta =>
      rw [show rest.foldl _ (mapSet mim q (storeMeta q meta)) =
        storeBatch f (mapSet mim q (storeMeta q meta)) rest from rfl,
        lookupKey_storeBatch_not_mem f p rest (mapSet mim q (storeMeta q meta)) hrest]
      exact lookupKey_mapSet_ne mim q p (storeMeta q meta) hq

theorem lookupKey_storeBatch_mem (f : String → Option MetaPayload) (p : String) :
    ∀ (batch : List String) (mim : List (String × MintInfo)),
      batch.Nodup → p ∈ batch →
      lookupKey (storeBatch f mim batch) p =
        match f p with
        | some meta => some (storeMeta p meta)
        | none => lookupKey mim p
  | [], mim, _, hp => by simp at hp
  | q :: rest, mim, hnd, hp => by
    rcases List.mem_cons.mp hp with rfl | hp2
    · have hrest : p ∉ rest := (List.nodup_cons.mp hnd).1
      simp only [storeBatch, List.foldl_cons]
      cases hf : f p with
      | none =>
        rw [show rest.foldl _ mim = storeBatch f mim rest from rfl,
          lookupKey_storeBatch_not_mem f p rest mim hrest]
      | some meta =>
        rw [show rest.foldl _ (mapSet mim p (storeMeta p meta)) =
          storeBatch f (mapSet mim p (storeMeta p meta)) rest from rfl,
          lookupKey_storeBatch_not_mem f p rest _ hrest]
        exact lookupKey_mapSet_self mim p (storeMeta p meta)
    · have hq : q ≠ p := by
        intro h
        exact (List.nodup_cons.mp hnd).1 (h ▸ hp2)
      simp only [storeBatch, List.foldl_cons]
      cases hf : f q with
      | none => exact lookupKey_storeBatch_mem f p rest mim (List.nodup_cons.mp hnd).2 hp2
      | some meta =>
        rw [show rest.foldl _ (mapSet mim q (storeMeta q meta)) =
          storeBatch f (mapSet mim q (storeMeta q meta)) rest from rfl,
          lookupKey_storeBatch_mem f p rest _ (List.nodup_cons.mp hnd).2 hp2]
        cases f p with
        | none => exact lookupKey_mapSet_ne mim q p (storeMeta q meta) (fun h => hq h.symm)
        | some _ => rfl

theorem lookupKey_applyBatch_not_mem
    (metaResp : List String → Option (String → Option MetaPayload))
    (mim : List (String × MintInfo)) (batch : List String) (p : String) (hp : p ∉ batch) :
    lookupKey (applyBatch metaResp mim batch) p = lookupKey mim p := by
  unfold applyBatch
  cases metaResp batch with
  | none => rfl
  | some f => exact lookupKey_storeBatch_not_mem f p batch mim hp

theorem lookupKey_foldBatches_not_mem
    (metaResp : List String → Option (String → Option MetaPayload)) :
    ∀ (CS : List (List String)) (mim : List (String × MintInfo)) (p : String),
      p ∉ CS.flatten →
      lookupKey (CS.foldl (applyBatch metaResp) mim) p = lookupKey mim p
  | [], mim, p, _ => rfl
  | C0 :: rest, mim, p, hp => by
    have h1 : p ∉ C0 := fun h => hp (by
      simp only [List.flatten_cons, List.mem_append]
      exact Or.inl h)
    have h2 : p ∉ rest.flatten := fun h => hp (by
      simp only [List.flatten_cons, List.mem_append]
      exact Or.inr h)
    simp only [List.foldl_cons]
    rw [lookupKey_foldBatches_not_mem metaResp rest _ p h2]
    exact lookupKey_applyBatch_not_mem metaResp mim C0 p h1

theorem lookupKey_foldBatches
    (metaResp : List String → Option (String → Option MetaPayload)) :
    ∀ (CS : List (List String)) (mim : List (String × MintInfo)) (C : List String) (p : String),
      CS.flatten.Nodup → C ∈ CS → p ∈ C → lookupKey mim p = none →
      lookupKey (CS.foldl (applyBatch metaResp) mim) p =
        match metaResp C with
        | some f => Option.map (storeMeta p) (f p)
        | none => none
  | [], _, C, _, _, hC, _, _ => by simp at hC
  | C0 :: rest, mim, C, p, hnd, hC, hp, hmim => by
    rw [List.flatten_cons, List.nodup_append] at hnd
    obtain ⟨hndC0, hndrest, hdisj⟩ := hnd
    rcases List.mem_cons.mp hC with rfl | hC2
    · have hrest : p ∉ rest.flatten := fun h => hdisj hp h
      simp only [List.foldl_cons]
      rw [lookupKey_foldBatches_not_mem metaResp rest _ p hrest]
      unfold applyBatch
      cases hresp : metaResp C with
      | none => exact hmim
      | some f =>
        rw [lookupKey_storeBatch_mem f p C mim hndC0 hp]
        show (match f p with
          | some meta => some (storeMeta p meta)
          | none => lookupKey mim p) = Option.map (storeMeta p) (f p)
        cases f p with
        | none => simpa using hmim
        | some meta => rfl
    · have hpC0 : p ∉ C0 := fun h =>
        hdisj h (List.mem_flatten.mpr ⟨C, hC2, hp⟩)
      simp only [List.foldl_cons]
      refine lookupKey_foldBatches metaResp rest _ C p hndrest hC2 hp ?_
      rw [lookupKey_applyBatch_not_mem metaResp mim C0 p hpC0]
      exact hmim

/-- C6: the metadata fetch partitions the (deduplicated) mint list into
ordered batches of at most 50 whose concatenation is the input, a
120-element input gives exactly the batch sizes 50, 50, 20 (one request
per batch), and the merged map holds, for each mint, exactly what its own
batch's response said: a failed or non-success batch contributes nothing,
and a mint of a successful batch is present precisely when the response
payload mentions it. -/
theorem metadata_batch_fetcher (metaResp : List String → Option (String → Option MetaPayload))
    (mints : List String) (hnd : mints.Nodup) :
    (chunksOf 50 mints).flatten = mints ∧
    (∀ C ∈ chunksOf 50 mints, C.length ≤ 50) ∧
    (mints.length = 120 → (chunksOf 50 mints).map List.length = [50, 50, 20]) ∧
    (∀ C ∈ chunksOf 50 mints, ∀ p ∈ C,
      lookupKey (fetchMintInfo metaResp mints) p =
        match metaResp C with
        | some f => Option.map (storeMeta p) (f p)
        | none => none) := by
  refine ⟨chunksOf_flatten 50 (by norm_num) mints, ?_, chunksOf_sizes_120 mints, ?_⟩
  · intro C hC
    exact chunkGo_length_le 50 mints.length mints C hC
  · intro C hC p hp
    unfold fetchMintInfo
    refine lookupKey_foldBatches metaResp (chunksOf 50 mints) [] C p ?_ hC hp rfl
    rw [chunksOf_flatten 50 (by norm_num) mints]
    exact hnd

/-- Witness: 120 distinct mint identifiers are fetched in exactly three
batches of sizes 50, 50 and 20. -/
theorem metadata_batch_fetcher_witness :
    (chunksOf 50 mints120).map List.length = [50, 50, 20] :=
  (metadata_batch_fetcher (fun _ => none) mints120 (by decide)).2.2.1 (by decide)

theorem classifyFold_fst (enc : List Nat → String) :
    ∀ (prs : List (String × Option AccountInfo))
      (acc : List TokenAcc × List String × List String),
      (prs.foldl (classifyStep enc) acc).1 = acc.1 ++ tokensOf enc prs := by
  intro prs
  induction prs with
  | nil => intro acc; simp [tokensOf]
  | cons pr rest ih =>
    intro acc
    simp only [List.foldl_cons]
    rw [ih]
    cases ha : accountAction enc pr.2 with
    | skip => simp [classifyStep, tokensOf, ha]
    | tokenAcct m a => simp [classifyStep, tokensOf, ha]
    | mintAcct => simp [classifyStep, tokensOf, ha]

theorem classifyFold_snd (enc : List Nat → String) :
    ∀ (prs : List (String × Option AccountInfo))
      (acc : List TokenAcc × List String × List String),
      (prs.foldl (classifyStep enc) acc).2.1 = acc.2.1 ++ mintsOf enc prs := by
  intro prs
  induction prs with
  | nil => intro acc; simp [mintsOf]
  | cons pr rest ih =>
    intro acc
    simp only [List.foldl_cons]
    rw [ih]
    cases ha : accountAction enc pr.2 with
    | skip => simp [classifyStep, mintsOf, ha]
    | tokenAcct m a => simp [classifyStep, mintsOf, ha]
    | mintAcct => simp [classifyStep, mintsOf, ha]

theorem classifyChunk_fst (enc : List Nat → String) (prs : List (String × Option AccountInfo)) :
    (classifyChunk enc prs).1 = tokensOf enc prs := by
  unfold classifyChunk
  rw [classifyFold_fst]
  rfl

theorem classifyChunk_snd (enc : List Nat → String) (prs : List (String × Option AccountInfo)) :
    (classifyChunk enc prs).2.1 = mintsOf enc prs := by
  unfold classifyChunk
  rw [classifyFold_snd]
  rfl

theorem mem_insertNew_of_mem (l : List String) (s s' : String) (h : s ∈ l) :
    s ∈ insertNew l s' := by
  unfold insertNew
  split
  · exact h
  · exact List.mem_append_left _ h

theorem self_mem_insertNew (l : List String) (s : String) : s ∈ insertNew l s := by
  unfold insertNew
  split
  · assumption
  · exact List.mem_append_right _ (List.mem_singleton.mpr rfl)

theorem insertNew_nodup (l : List String) (s : String) (h : l.Nodup) :
    (insertNew l s).Nodup := by
  unfold insertNew
  split
  · exact h
  · rename_i hs
    simp [List.nodup_append, h, hs]

theorem classifyFold_uniq_mono (enc : List Nat → String) :
    ∀ (prs : List (String × Option AccountInfo)) (acc : _) (s : String),
      s ∈ acc.2.2 → s ∈ (prs.foldl (classifyStep enc) acc).2.2 := by
  intro prs
  induction prs with
  | nil => intro acc s h; exact h
  | cons pr rest ih =>
    intro acc s h
    simp only [List.foldl_cons]
    refine ih _ s ?_
    cases ha : accountAction enc pr.2 with
    | skip => simpa [classifyStep, ha] using h
    | tokenAcct m a =>
      simp only [classifyStep, ha]
      exact mem_insertNew_of_mem _ s m h
    | mintAcct =>
      simp only [classifyStep, ha]
      exact mem_insertNew_of_mem _ s pr.1 h

theorem classifyFold_uniq_nodup (enc : List Nat → String) :
    ∀ (prs : List (String × Option AccountInfo)) (acc : _),
      acc.2.2.Nodup → (prs.foldl (classifyStep enc) acc).2.2.Nodup := by
  intro prs
  induction prs with
  | nil => intro acc h; exact h
  | cons pr rest ih =>
    intro acc h
    simp only [List.foldl_cons]
    refine ih _ ?_
    cases ha : accountAction enc pr.2 with
    | skip => simpa [classifyStep, ha] using h
    | tokenAcct m a =>
      simp only [classifyStep, ha]
      exact insertNew_nodup _ m h
    | mintAcct =>
      simp only [classifyStep, ha]
      exact insertNew_nodup _ pr.1 h

theorem classifyChunk_uniq_nodup (enc : List Nat → String)
    (prs : List (String × Option AccountInfo)) : (classifyChunk enc prs).2.2.Nodup :=
  classifyFold_uniq_nodup enc prs ([], [], []) (by simp)

theorem tokensOf_mint_mem_uniq (enc : List Nat → String) :
    ∀ (prs : List (String × Option AccountInfo)) (acc : _) (ta : TokenAcc),
      ta ∈ tokensOf enc prs → ta.mint ∈ (prs.foldl (classifyStep enc) acc).2.2 := by
  intro prs
  induction prs with
  | nil => intro acc ta h; simp [tokensOf] at h
  | cons pr rest ih =>
    intro acc ta h
    simp only [List.foldl_cons]
    cases ha : accountAction enc pr.2 with
    | skip =>
      rw [show tokensOf enc (pr :: rest) = tokensOf enc rest from by simp [tokensOf, ha]] at h
      exact ih _ ta h
    | tokenAcct m a =>
      rw [show tokensOf enc (pr :: rest) = ⟨pr.1, m, a⟩ :: tokensOf enc rest from by
        simp [tokensOf, ha]] at h
      rcases List.mem_cons.mp h with rfl | h2
      · refine classifyFold_uniq_mono enc rest _ _ ?_
        simp only [classifyStep, ha]
        exact self_mem_insertNew _ _
      · exact ih _ ta h2
    | mintAcct =>
      rw [show tokensOf enc (pr :: rest) = tokensOf enc rest from by simp [tokensOf, ha]] at h
      exact ih _ ta h

theorem mintsOf_mem_uniq (enc : List Nat → String) :
    ∀ (prs : List (String × Option AccountInfo)) (acc : _) (p : String),
      p ∈ mintsOf enc prs → p ∈ (prs.foldl (classifyStep enc) acc).2.2 := by
  intro prs
  induction prs with
  | nil => intro acc p h; simp [mintsOf] at h
  | cons pr rest ih =>
    intro acc p h
    simp only [List.foldl_cons]
    cases ha : accountAction enc pr.2 with
    | skip =>
      rw [show mintsOf enc (pr :: rest) = mintsOf enc rest from by simp [mintsOf, ha]] at h
      exact ih _ p h
    | tokenAcct m a =>
      rw [show mintsOf enc (pr :: rest) = mintsOf enc rest from by simp [mintsOf, ha]] at h
      exact ih _ p h
    | mintAcct =>
      rw [show mintsOf enc (pr :: rest) = pr.1 :: mintsOf enc rest from by
        simp [mintsOf, ha]] at h
      rcases List.mem_cons.mp h with rfl | h2
      · refine classifyFold_uniq_mono enc rest _ _ ?_
        simp only [classifyStep, ha]
        exact self_mem_insertNew _ _
      · exact ih _ p h2

theorem tokensOf_mem (enc : List Nat → String) :
    ∀ (prs : List (String × Option AccountInfo)) (ta : TokenAcc), ta ∈ tokensOf enc prs →
      ∃ info, (ta.pubkey, info) ∈ prs ∧ accountAction enc info = .tokenAcct ta.mint ta.amount := by
  intro prs
  induction prs with
  | nil => intro ta h; simp [tokensOf] at h
  | cons pr rest ih =>
    intro ta h
    cases ha : accountAction enc pr.2 with
    | skip =>
      rw [show tokensOf enc (pr :: rest) = tokensOf enc rest from by simp [tokensOf, ha]] at h
      obtain ⟨info, hmem, hact⟩ := ih ta h
      exact ⟨info, List.mem_cons_of_mem _ hmem, hact⟩
    | tokenAcct m a =>
      rw [show tokensOf enc (pr :: rest) = ⟨pr.1, m, a⟩ :: tokensOf enc rest from by
        simp [tokensOf, ha]] at h
      rcases List.mem_cons.mp h with rfl | h2
      · exact ⟨pr.2, by simp, ha⟩
      · obtain ⟨info, hmem, hact⟩ := ih ta h2
        exact ⟨info, List.mem_cons_of_mem _ hmem, hact⟩
    | mintAcct =>
      rw [show tokensOf enc (pr :: rest) = tokensOf enc rest from by simp [tokensOf, ha]] at h
      obtain ⟨info, hmem, hact⟩ := ih ta h
      exact ⟨info, List.mem_cons_of_mem _ hmem, hact⟩

theorem mem_tokensOf (enc : List Nat → String) :
    ∀ (prs : List (String × Option AccountInfo)) (p : String) (info : Option AccountInfo)
      (mnt : String) (amt : Nat), (p, info) ∈ prs →
      accountAction enc info = .tokenAcct mnt amt →
      (⟨p, mnt, amt⟩ : TokenAcc) ∈ tokensOf enc prs := by
  intro prs
  induction prs with
  | nil => intro p info mnt amt h _; simp at h
  | cons pr rest ih =>
    intro p info mnt amt h hact
    rcases List.mem_cons.mp h with rfl | h2
    · rw [show tokensOf enc ((p, info) :: rest) = ⟨p, mnt, amt⟩ :: tokensOf enc rest from by
        simp [tokensOf, hact]]
      exact List.mem_cons_self _ _
    · cases ha : accountAction enc pr.2 with
      | skip =>
        rw [show tokensOf enc (pr :: rest) = tokensOf enc rest from by simp [tokensOf, ha]]
        exact ih p info mnt amt h2 hact
      | tokenAcct m a =>
        rw [show tokensOf enc (pr :: rest) = ⟨pr.1, m, a⟩ :: tokensOf enc rest from by
          simp [tokensOf, ha]]
        exact List.mem_cons_of_mem _ (ih p info mnt amt h2 hact)
      | mintAcct =>
        rw [show tokensOf enc (pr :: rest) = tokensOf enc rest from by simp [tokensOf, ha]]
        exact ih p info mnt amt h2 hact

theorem mintsOf_mem (enc : List Nat → String) :
    ∀ (prs : List (String × Option AccountInfo)) (p : String), p ∈ mintsOf enc prs →
      ∃ info, (p, info) ∈ prs ∧ accountAction enc info = .mintAcct := by
  intro prs
  induction prs with
  | nil => intro p h; simp [mintsOf] at h
  | cons pr rest ih =>
    intro p h
    cases ha : accountAction enc pr.2 with
    | skip =>
      rw [show mintsOf enc (pr :: rest) = mintsOf enc rest from by simp [mintsOf, ha]] at h
      obtain ⟨info, hmem, hact⟩ := ih p h
      exact ⟨info, List.mem_cons_of_mem _ hmem, hact⟩
    | tokenAcct m a =>
      rw [show mintsOf enc (pr :: rest) = mintsOf enc rest from by simp [mintsOf, ha]] at h
      obtain ⟨info, hmem, hact⟩ := ih p h
      exact ⟨info, List.mem_cons_of_mem _ hmem, hact⟩
    | mintAcct =>
      rw [show mintsOf enc (pr :: rest) = pr.1 :: mintsOf enc rest from by
        simp [mintsOf, ha]] at h
      rcases List.mem_cons.mp h with rfl | h2
      · exact ⟨pr.2, by simp, ha⟩
      · obtain ⟨info, hmem, hact⟩ := ih p h2
        exact ⟨info, List.mem_cons_of_mem _ hmem, hact⟩

theorem mem_mintsOf (enc : List Nat → String) :
    ∀ (prs : List (String × Option AccountInfo)) (p : String) (info : Option AccountInfo),
      (p, info) ∈ prs → accountAction enc info = .mintAcct → p ∈ mintsOf enc prs := by
  intro prs
  induction prs with
  | nil => intro p info h _; simp at h
  | cons pr rest ih =>
    intro p info h hact
    rcases List.mem_cons.mp h with rfl | h2
    · rw [show mintsOf enc ((p, info) :: rest) = p :: mintsOf enc rest from by
        simp [mintsOf, hact]]
      exact List.mem_cons_self _ _
    · cases ha : accountAction enc pr.2 with
      | skip =>
        rw [show mintsOf enc (pr :: rest) = mintsOf enc rest from by simp [mintsOf, ha]]
        exact ih p info h2 hact
      | tokenAcct m a =>
        rw [show mintsOf enc (pr :: rest) = mintsOf enc rest from by simp [mintsOf, ha]]
        exact ih p info h2 hact
      | mintAcct =>
        rw [show mintsOf enc (pr :: rest) = pr.1 :: mintsOf enc rest from by
          simp [mintsOf, ha]]
        exact List.mem_cons_of_mem _ (ih p info h2 hact)

theorem tokensOf_pubkeys_sublist (enc : List Nat → String) :
    ∀ prs : List (String × Option AccountInfo),
      ((tokensOf enc prs).map TokenAcc.pubkey).Sublist (prs.map Prod.fst) := by
  intro prs
  induction prs with
  | nil => simp [tokensOf]
  | cons pr rest ih =>
    cases ha : accountAction enc pr.2 with
    | skip =>
      rw [show tokensOf enc (pr :: rest) = tokensOf enc rest from by simp [tokensOf, ha]]
      exact ih.cons pr.1
    | tokenAcct m a =>
      rw [show tokensOf enc (pr :: rest) = ⟨pr.1, m, a⟩ :: tokensOf enc rest from by
        simp [tokensOf, ha]]
      simpa using ih.cons₂ pr.1
    | mintAcct =>
      rw [show tokensOf enc (pr :: rest) = tokensOf enc rest from by simp [tokensOf, ha]]
      exact ih.cons pr.1

theorem mintsOf_sublist (enc : List Nat → String) :
    ∀ prs : List (String × Option AccountInfo),
      (mintsOf enc prs).Sublist (prs.map Prod.fst) := by
  intro prs
  induction prs with
  | nil => simp [mintsOf]
  | cons pr rest ih =>
    cases ha : accountAction enc pr.2 with
    | skip =>
      rw [show mintsOf enc (pr :: rest) = mintsOf enc rest from by simp [mintsOf, ha]]
      exact ih.cons pr.1
    | tokenAcct m a =>
      rw [show mintsOf enc (pr :: rest) = mintsOf enc rest from by simp [mintsOf, ha]]
      exact ih.cons pr.1
    | mintAcct =>
      rw [show mintsOf enc (pr :: rest) = pr.1 :: mintsOf enc rest from by
        simp [mintsOf, ha]]
      simpa using ih.cons₂ pr.1

theorem mem_unique_of_nodup_fst :
    ∀ (prs : List (String × Option AccountInfo)), (prs.map Prod.fst).Nodup →
      ∀ (p : String) (i1 i2 : Option AccountInfo),
        (p, i1) ∈ prs → (p, i2) ∈ prs → i1 = i2 := by
  intro prs
  induction prs with
  | nil => intro _ p i1 i2 h; simp at h
  | cons pr rest ih =>
    intro hnd p i1 i2 h1 h2
    simp only [List.map_cons, List.nodup_cons] at hnd
    rcases List.mem_cons.mp h1 with e1 | m1
    · rcases List.mem_cons.mp h2 with e2 | m2
      · exact congrArg Prod.snd (e1.trans e2.symm)
      · exfalso
        refine hnd.1 ?_
        rw [show pr.1 = p from (congrArg Prod.fst e1).symm]
        exact List.mem_map_of_mem Prod.fst m2
    · rcases List.mem_cons.mp h2 with e2 | m2
      · exfalso
        refine hnd.1 ?_
        rw [show pr.1 = p from (congrArg Prod.fst e2).symm]
        exact List.mem_map_of_mem Prod.fst m1
      · exact ih hnd.2 p i1 i2 m1 m2

/-! ## Enrichment writes and the per-chunk map characterization -/
theorem lookupKey_enrichTokens_not_mem (glabel : Option (String → Option String))
    (mim : List (String × MintInfo)) :
    ∀ (tas : List TokenAcc) (m : EMap) (p : String), p ∉ tas.map TokenAcc.pubkey →
      lookupKey (enrichTokens glabel mim m tas) p = lookupKey m p
  | [], _, _, _ => rfl
  | ta :: rest, m, p, hp => by
    have hne : p ≠ ta.pubkey := fun h => hp (by rw [h]; simp)
    have hrest : p ∉ rest.map TokenAcc.pubkey := fun h => hp (by simp; right; simpa using h)
    simp only [enrichTokens, List.foldl_cons]
    rw [show rest.foldl _ (mapSet m ta.pubkey _) =
      enrichTokens glabel mim (mapSet m ta.pubkey
        (tokenEntry ta.pubkey ta.mint ta.amount (lookupInfo mim ta.mint)
          (glabelOf glabel ta.pubkey))) rest from rfl,
      lookupKey_enrichTokens_not_mem glabel mim rest _ p hrest]
    exact lookupKey_mapSet_ne m ta.pubkey p _ hne

theorem lookupKey_enrichTokens_mem (glabel : Option (String → Option String))
    (mim : List (String × MintInfo)) :
    ∀ (tas : List TokenAcc) (m : EMap) (p mnt : String) (amt : Nat),
      (tas.map TokenAcc.pubkey).Nodup → (⟨p, mnt, amt⟩ : TokenAcc) ∈ tas →
      lookupKey (enrichTokens glabel mim m tas) p =
        some (tokenEntry p mnt amt (lookupInfo mim mnt) (glabelOf glabel p))
  | [], _, _, _, _, _, hmem => by simp at hmem
  | ta :: rest, m, p, mnt, amt, hnd, hmem => by
    simp only [List.map_cons, List.nodup_cons] at hnd
    rcases List.mem_cons.mp hmem with rfl | h2
    · have hrest : p ∉ rest.map TokenAcc.pubkey := by simpa using hnd.1
      simp only [enrichTokens, List.foldl_cons]
      rw [show rest.foldl _ (mapSet m _ _) =
        enrichTokens glabel mim (mapSet m p
          (tokenEntry p mnt amt (lookupInfo mim mnt) (glabelOf glabel p))) rest from rfl,
        lookupKey_enrichTokens_not_mem glabel mim rest _ p hrest]
      exact lookupKey_mapSet_self m p _
    · have hne : p ≠ ta.pubkey := by
        intro h
        refine hnd.1 ?_
        rw [← h]
        exact List.mem_map_of_mem TokenAcc.pubkey h2
    -- the later write for p overrides regardless, and p occurs uniquely
      simp only [enrichTokens, List.foldl_cons]
      rw [show rest.foldl _ (mapSet m _ _) =
        enrichTokens glabel mim (mapSet m ta.pubkey
          (tokenEntry ta.pubkey ta.mint ta.amount (lookupInfo mim ta.mint)
            (glabelOf glabel ta.pubkey))) rest from rfl]
      exact lookupKey_enrichTokens_mem glabel mim rest _ p mnt amt hnd.2 h2

theorem lookupKey_enrichMints_not_mem (glabel : Option (String → Option String))
    (mim : List (String × MintInfo)) :
    ∀ (mas : List String) (m : EMap) (p : String), p ∉ mas →
      lookupKey (enrichMints glabel mim m mas) p = lookupKey m p
  | [], _, _, _ => rfl
  | mp :: rest, m, p, hp => by
    have hne : p ≠ mp := fun h => hp (by rw [h]; exact List.mem_cons_self _ _)
    have hrest : p ∉ rest := fun h => hp (List.mem_cons_of_mem _ h)
    simp only [enrichMints, List.foldl_cons]
    rw [show rest.foldl _ (mapSet m mp _) =
      enrichMints glabel mim (mapSet m mp
        (mintEntry mp (lookupInfo mim mp) (glabelOf glabel mp))) rest from rfl,
      lookupKey_enrichMints_not_mem glabel mim rest _ p hrest]
    exact lookupKey_mapSet_ne m mp p _ hne

theorem lookupKey_enrichMints_mem (glabel : Option (String → Option String))
    (mim : List (String × MintInfo)) :
    ∀ (mas : List String) (m : EMap) (p : String), mas.Nodup → p ∈ mas →
      lookupKey (enrichMints glabel mim m mas) p =
        some (mintEntry p (lookupInfo mim p) (glabelOf glabel p))
  | [], _, _, _, hp => by simp at hp
  | mp :: rest, m, p, hnd, hp => by
    rcases List.mem_cons.mp hp with rfl | h2
    · have hrest : p ∉ rest := (List.nodup_cons.mp hnd).1
      simp only [enrichMints, List.foldl_cons]
      rw [show rest.foldl _ (mapSet m p _) =
        enrichMints glabel mim (mapSet m p
          (mintEntry p (lookupInfo mim p) (glabelOf glabel p))) rest from rfl,
        lookupKey_enrichMints_not_mem glabel mim rest _ p hrest]
      exact lookupKey_mapSet_self m p _
    · simp only [enrichMints, List.foldl_cons]
      rw [show rest.foldl _ (mapSet m mp _) =
        enrichMints glabel mim (mapSet m mp
          (mintEntry mp (lookupInfo mim mp) (glabelOf glabel mp))) rest from rfl]
      exact lookupKey_enrichMints_mem glabel mim rest _ p (List.nodup_cons.mp hnd).2 h2

theorem mem_accountPairs (resolver : List String → Option (List (Option AccountInfo)))
    (chunk : List String) (p : String) (info : Option AccountInfo)
    (h : (p, info) ∈ accountPairs resolver chunk) : p ∈ chunk := by
  unfold accountPairs at h
  rcases hres : resolver chunk with _ | infos
  · rw [hres] at h
    exact (List.of_mem_zip h).1
  · rw [hres] at h
    exact (List.of_mem_zip h).1

theorem map_fst_zip_sublist {α β : Type} :
    ∀ (l1 : List α) (l2 : List β), ((l1.zip l2).map Prod.fst).Sublist l1
  | [], _ => by simp
  | _ :: _, [] => by simp
  | a :: t1, b :: t2 => by
    rw [List.zip_cons_cons, List.map_cons]
    exact (map_fst_zip_sublist t1 t2).cons₂ a

theorem accountPairs_fst_sublist (resolver : List String → Option (List (Option AccountInfo)))
    (chunk : List String) :
    ((accountPairs resolver chunk).map Prod.fst).Sublist chunk := by
  unfold accountPairs
  cases resolver chunk with
  | some infos => exact map_fst_zip_sublist chunk infos
  | none => exact map_fst_zip_sublist chunk _

theorem accountPairs_fst_nodup (resolver : List String → Option (List (Option AccountInfo)))
    (chunk : List String) (h : chunk.Nodup) :
    ((accountPairs resolver chunk).map Prod.fst).Nodup :=
  h.sublist (accountPairs_fst_sublist resolver chunk)

theorem lookupKey_processChunk_not_mem (enc : List Nat → String)
    (resolver : List String → Option (List (Option AccountInfo)))
    (metaResp : List String → Option (String → Option MetaPayload))
    (glabel : Option (String → Option String))
    (m : EMap) (chunk : List String) (p : String) (hp : p ∉ chunk) :
    lookupKey (processChunk enc resolver metaResp glabel m chunk) p = lookupKey m p := by
  have htok : p ∉ ((classifyChunk enc (accountPairs resolver chunk)).1).map TokenAcc.pubkey := by
    rw [classifyChunk_fst]
    intro h
    exact hp (((tokensOf_pubkeys_sublist enc _).trans
      (accountPairs_fst_sublist resolver chunk)).subset h)
  have hmnt : p ∉ (classifyChunk enc (accountPairs resolver chunk)).2.1 := by
    rw [classifyChunk_snd]
    intro h
    exact hp (((mintsOf_sublist enc _).trans
      (accountPairs_fst_sublist resolver chunk)).subset h)
  simp only [processChunk]
  split
  · rfl
  · rw [lookupKey_enrichMints_not_mem _ _ _ _ p hmnt,
      lookupKey_enrichTokens_not_mem _ _ _ _ p htok]

theorem lookupKey_processChunk (enc : List Nat → String)
    (resolver : List String → Option (List (Option AccountInfo)))
    (metaResp : List String → Option (String → Option MetaPayload))
    (glabel : Option (String → Option String))
    (m : EMap) (chunk : List String) (hnd : chunk.Nodup)
    (p : String) (info : Option AccountInfo)
    (hp : (p, info) ∈ accountPairs resolver chunk) :
    lookupKey (processChunk enc resolver metaResp glabel m chunk) p =
      match accountAction enc info with
      | .skip => lookupKey m p
      | .tokenAcct mnt amt =>
        some (tokenEntry p mnt amt
          (lookupInfo (fetchMintInfo metaResp
            (classifyChunk enc (accountPairs resolver chunk)).2.2) mnt)
          (glabelOf glabel p))
      | .mintAcct =>
        some (mintEntry p
          (lookupInfo (fetchMintInfo metaResp
            (classifyChunk enc (accountPairs resolver chunk)).2.2) p)
          (glabelOf glabel p)) := by
  have hfst := accountPairs_fst_nodup resolver chunk hnd
  cases ha : accountAction enc info with
  | skip =>
    have htok : p ∉ ((classifyChunk enc (accountPairs resolver chunk)).1).map
        TokenAcc.pubkey := by
      rw [classifyChunk_fst]
      intro h
      obtain ⟨ta, hta, hpk⟩ := List.mem_map.mp h
      obtain ⟨info2, hmem2, hact2⟩ := tokensOf_mem enc _ ta hta
      rw [hpk] at hmem2
      rw [mem_unique_of_nodup_fst _ hfst p info info2 hp hmem2, hact2] at ha
      exact AccountAction.noConfusion ha
    have hmnt : p ∉ (classifyChunk enc (accountPairs resolver chunk)).2.1 := by
      rw [classifyChunk_snd]
      intro h
      obtain ⟨info2, hmem2, hact2⟩ := mintsOf_mem enc _ p h
      rw [mem_unique_of_nodup_fst _ hfst p info info2 hp hmem2, hact2] at ha
      exact AccountAction.noConfusion ha
    simp only [processChunk]
    split
    · rfl
    · rw [lookupKey_enrichMints_not_mem _ _ _ _ p hmnt,
        lookupKey_enrichTokens_not_mem _ _ _ _ p htok]
  | tokenAcct mnt amt =>
    have htok : (⟨p, mnt, amt⟩ : TokenAcc) ∈ tokensOf enc (accountPairs resolver chunk) :=
      mem_tokensOf enc _ p info mnt amt hp ha
    have hmnt : p ∉ (classifyChunk enc (accountPairs resolver chunk)).2.1 := by
      rw [classifyChunk_snd]
      intro h
      obtain ⟨info2, hmem2, hact2⟩ := mintsOf_mem enc _ p h
      rw [mem_unique_of_nodup_fst _ hfst p info info2 hp hmem2, hact2] at ha
      exact AccountAction.noConfusion ha
    have huniq : mnt ∈ (classifyChunk enc (accountPairs resolver chunk)).2.2 := by
      have := tokensOf_mint_mem_uniq enc (accountPairs resolver chunk) ([], [], [])
        ⟨p, mnt, amt⟩ htok
      exact this
    simp only [processChunk]
    rw [if_neg (by
      intro h
      rw [h] at huniq
      simp at huniq)]
    rw [lookupKey_enrichMints_not_mem _ _ _ _ p hmnt]
    rw [show (classifyChunk enc (accountPairs resolver chunk)).1 =
      tokensOf enc (accountPairs resolver chunk) from classifyChunk_fst enc _]
    exact lookupKey_enrichTokens_mem _ _ _ _ p mnt amt
      (by
        rw [← classifyChunk_fst]
        exact hfst.sublist (by
          rw [classifyChunk_fst]
          exact tokensOf_pubkeys_sublist enc _))
      htok
  | mintAcct =>
    have hmnt : p ∈ (classifyChunk enc (accountPairs resolver chunk)).2.1 := by
      rw [classifyChunk_snd]
      exact mem_mintsOf enc _ p info hp ha
    have huniq : p ∈ (classifyChunk enc (accountPairs resolver chunk)).2.2 :=
      mintsOf_mem_uniq enc (accountPairs resolver chunk) ([], [], []) p
        (by rw [← classifyChunk_snd enc]; exact hmnt)
    simp only [processChunk]
    rw [if_neg (by
      intro h
      rw [h] at huniq
      simp at huniq)]
    refine lookupKey_enrichMints_mem _ _ _ _ p ?_ hmnt
    rw [classifyChunk_snd]
    exact hfst.sublist (mintsOf_sublist enc _)

theorem lookupKey_foldChunks_not_mem (enc : List Nat → String)
    (resolver : List String → Option (List (Option AccountInfo)))
    (metaResp : List String → Option (String → Option MetaPayload))
    (glabel : Option (String → Option String)) :
    ∀ (CS : List (List String)) (m : EMap) (p : String), p ∉ CS.flatten →
      lookupKey (CS.foldl (processChunk enc resolver metaResp glabel) m) p = lookupKey m p
  | [], _, _, _ => rfl
  | C0 :: rest, m, p, hp => by
    have h1 : p ∉ C0 := fun h => hp (by
      simp only [List.flatten_cons, List.mem_append]
      exact Or.inl h)
    have h2 : p ∉ rest.flatten := fun h => hp (by
      simp only [List.flatten_cons, List.mem_append]
      exact Or.inr h)
    simp only [List.foldl_cons]
    rw [lookupKey_foldChunks_not_mem enc resolver metaResp glabel rest _ p h2]
    exact lookupKey_processChunk_not_mem enc resolver metaResp glabel m C0 p h1

theorem lookupKey_foldChunks (enc : List Nat → String)
    (resolver : List String → Option (List (Option AccountInfo)))
    (metaResp : List String → Option (String → Option MetaPayload))
    (glabel : Option (String → Option String)) :
    ∀ (CS : List (List String)) (m : EMap) (C : List String) (p : String)
      (info : Option AccountInfo),
      CS.flatten.Nodup → C ∈ CS → (p, info) ∈ accountPairs resolver C →
      lookupKey m p = none →
      lookupKey (CS.foldl (processChunk enc resolver metaResp glabel) m) p =
        match accountAction enc info with
        | .skip => none
        | .tokenAcct mnt amt =>
          some (tokenEntry p mnt amt
            (lookupInfo (fetchMintInfo metaResp
              (classifyChunk enc (accountPairs resolver C)).2.2) mnt)
            (glabelOf glabel p))
        | .mintAcct =>
          some (mintEntry p
            (lookupInfo (fetchMintInfo metaResp
              (classifyChunk enc (accountPairs resolver C)).2.2) p)
            (glabelOf glabel p))
  | [], _, C, _, _, _, hC, _, _ => by simp at hC
  | C0 :: rest, m, C, p, info, hnd, hC, hp, hm => by
    rw [List.flatten_cons, List.nodup_append] at hnd
    obtain ⟨hndC0, hndrest, hdisj⟩ := hnd
    have hpC : p ∈ C := mem_accountPairs resolver C p info hp
    rcases List.mem_cons.mp hC with rfl | hC2
    · have hrest : p ∉ rest.flatten := fun h => hdisj hpC h
      simp only [List.foldl_cons]
      rw [lookupKey_foldChunks_not_mem enc resolver metaResp glabel rest _ p hrest,
        lookupKey_processChunk enc resolver metaResp glabel m C hndC0 p info hp]
      cases accountAction enc info with
      | skip => exact hm
      | tokenAcct mnt amt => rfl
      | mintAcct => rfl
    · have hpC0 : p ∉ C0 := fun h => hdisj h (List.mem_flatten.mpr ⟨C, hC2, hpC⟩)
      simp only [List.foldl_cons]
      refine lookupKey_foldChunks enc resolver metaResp glabel rest _ C p info
        hndrest hC2 hp ?_
      rw [lookupKey_processChunk_not_mem enc resolver metaResp glabel m C0 p hpC0]
      exact hm

theorem lookupKey_preLabel (enc : List Nat → String)
    (resolver : List String → Option (List (Option AccountInfo)))
    (metaResp : List String → Option (String → Option MetaPayload))
    (glabel : Option (String → Option String))
    (pubkeys : List String) (hnd : pubkeys.Nodup)
    (C : List String) (hC : C ∈ chunksOf 100 pubkeys)
    (p : String) (info : Option AccountInfo) (hp : (p, info) ∈ accountPairs resolver C) :
    lookupKey (preLabel enc resolver metaResp glabel pubkeys) p =
      match accountAction enc info with
      | .skip => none
      | .tokenAcct mnt amt =>
        some (tokenEntry p mnt amt
          (lookupInfo (fetchMintInfo metaResp
            (classifyChunk enc (accountPairs resolver C)).2.2) mnt)
          (glabelOf glabel p))
      | .mintAcct =>
        some (mintEntry p
          (lookupInfo (fetchMintInfo metaResp
            (classifyChunk enc (accountPairs resolver C)).2.2) p)
          (glabelOf glabel p)) := by
  unfold preLabel
  refine lookupKey_foldChunks enc resolver metaResp glabel (chunksOf 100 pubkeys) [] C p info
    ?_ hC hp rfl
  rw [chunksOf_flatten 100 (by norm_num) pubkeys]
  exact hnd

theorem lookupKey_labelStep_ne (g : String → Option String) (m : EMap) (p q : String)
    (h : p ≠ q) : lookupKey (labelStep g m q) p = lookupKey m p := by
  cases hcur : lookupKey m q with
  | none =>
    cases hgq : g q with
    | none => simp [labelStep, hcur, hgq]
    | some lab =>
      by_cases hl : lab = ""
      · simp [labelStep, hcur, hgq, hl]
      · simp only [labelStep, hcur, hgq, if_neg hl]
        exact lookupKey_mapSet_ne m q p _ h
  | some e =>
    cases hgq : g q with
    | none => simp [labelStep, hcur, hgq]
    | some lab =>
      by_cases hl : lab = ""
      · simp [labelStep, hcur, hgq, hl]
      · simp only [labelStep, hcur, hgq, if_neg hl]
        exact lookupKey_mapSet_ne m q p _ h

theorem lookupKey_labelStep_self (g : String → Option String) (m : EMap) (p : String) :
    lookupKey (labelStep g m p) p = labelOutcome g p (lookupKey m p) := by
  cases hcur : lookupKey m p with
  | none =>
    cases hgp : g p with
    | none => simp [labelStep, labelOutcome, hcur, hgp]
    | some lab =>
      by_cases hl : lab = ""
      · simp [labelStep, labelOutcome, hcur, hgp, hl]
      · simp only [labelStep, labelOutcome, hcur, hgp, if_neg hl]
        exact lookupKey_mapSet_self m p _
  | some e =>
    cases hgp : g p with
    | none => simp [labelStep, labelOutcome, hcur, hgp]
    | some lab =>
      by_cases hl : lab = ""
      · simp [labelStep, labelOutcome, hcur, hgp, hl]
      · simp only [labelStep, labelOutcome, hcur, hgp, if_neg hl]
        exact lookupKey_mapSet_self m p _

theorem lookupKey_labelFold_not_mem (g : String → Option String) :
    ∀ (l : List String) (m : EMap) (p : String), p ∉ l →
      lookupKey (l.foldl (labelStep g) m) p = lookupKey m p
  | [], _, _, _ => rfl
  | q :: rest, m, p, hp => by
    have hq : p ≠ q := fun h => hp (by rw [h]; exact List.mem_cons_self _ _)
    have hrest : p ∉ rest := fun h => hp (List.mem_cons_of_mem _ h)
    simp only [List.foldl_cons]
    rw [lookupKey_labelFold_not_mem g rest _ p hrest]
    exact lookupKey_labelStep_ne g m p q hq

theorem lookupKey_labelFold_mem (g : String → Option String) :
    ∀ (l : List String) (m : EMap) (p : String), l.Nodup → p ∈ l →
      lookupKey (l.foldl (labelStep g) m) p = labelOutcome g p (lookupKey m p)
  | [], _, _, _, hp => by simp at hp
  | q :: rest, m, p, hnd, hp => by
    rcases List.mem_cons.mp hp with rfl | h2
    · have hrest : p ∉ rest := (List.nodup_cons.mp hnd).1
      simp only [List.foldl_cons]
      rw [lookupKey_labelFold_not_mem g rest _ p hrest]
      exact lookupKey_labelStep_self g m p
    · have hq : p ≠ q := fun h => (List.nodup_cons.mp hnd).1 (h ▸ h2)
      simp only [List.foldl_cons]
      rw [lookupKey_labelFold_mem g rest _ p (List.nodup_cons.mp hnd).2 h2,
        lookupKey_labelStep_ne g m p q hq]

theorem lookupKey_fetchEnrichmentMap (enc : List Nat → String)
    (resolver : List String → Option (List (Option AccountInfo)))
    (metaResp : List String → Option (String → Option MetaPayload))
    (glabel : Option (String → Option String))
    (pubkeys : List String) (hnd : pubkeys.Nodup) (p : String) (hp : p ∈ pubkeys) :
    lookupKey (fetchEnrichmentMap enc resolver metaResp glabel pubkeys) p =
      match glabel with
      | none => lookupKey (preLabel enc resolver metaResp glabel pubkeys) p
      | some g =>
        labelOutcome g p (lookupKey (preLabel enc resolver metaResp glabel pubkeys) p) := by
  unfold fetchEnrichmentMap
  rw [if_neg (List.ne_nil_of_mem hp)]
  unfold labelPass
  cases glabel with
  | none => rfl
  | some g => exact lookupKey_labelFold_mem g pubkeys _ p hnd hp

/-- C8: when a label lookup is supplied and returns a (truthy) label for an
input address, an address with no token or mint annotation ends up as a
labeled annotation carrying exactly that address and label, and an address
already annotated keeps its entry with only the label field attached. -/
theorem label_lookup_behaviour (enc : List Nat → String)
    (resolver : List String → Option (List (Option AccountInfo)))
    (metaResp : List String → Option (String → Option MetaPayload))
    (g : String → Option String)
    (pubkeys : List String) (hnd : pubkeys.Nodup) (p : String) (hp : p ∈ pubkeys)
    (lab : String) (hlab : g p = some lab) (hne : lab ≠ "") :
    (lookupKey (preLabel enc resolver metaResp (some g) pubkeys) p = none →
      lookupKey (fetchEnrichmentMap enc resolver metaResp (some g) pubkeys) p =
        some (labeledEntry p lab)) ∧
    (∀ e, lookupKey (preLabel enc resolver metaResp (some g) pubkeys) p = some e →
      lookupKey (fetchEnrichmentMap enc resolver metaResp (some g) pubkeys) p =
        some { e with label := some lab }) := by
  have hmain := lookupKey_fetchEnrichmentMap enc resolver metaResp (some g) pubkeys hnd p hp
  constructor
  · intro hpre
    rw [hmain, hpre]
    simp [labelOutcome, hlab, hne]
  · intro e hpre
    rw [hmain, hpre]
    simp [labelOutcome, hlab, hne]

/-- Witness for C8: an address the resolver cannot classify, whose label
lookup answers "Treasury", becomes a labeled annotation. -/
theorem label_lookup_behaviour_witness :
    lookupKey (fetchEnrichmentMap (fun _ => "M") (fun _ => none) (fun _ => none)
      (some gTreasury) ["B"]) "B" = some (labeledEntry "B" "Treasury") :=
  (label_lookup_behaviour (fun _ => "M") (fun _ => none) (fun _ => none) gTreasury
    ["B"] (by decide) "B" (by decide) "Treasury" (by decide) (by decide)).1 (by decide)

/-- C8 counterexample: the lookup returns a label (the empty string) for an
unannotated address, yet no labeled annotation is inserted — JavaScript
truthiness silently drops empty-string labels. -/
theorem label_lookup_empty_counterexample :
    gEmpty "B" = some "" ∧
    fetchEnrichmentMap (fun _ => "M") (fun _ => none) (fun _ => none)
      (some gEmpty) ["B"] = [] :=
  ⟨by decide, by decide⟩

/-! ## Malformed blobs (claim C9) -/
/-- C9: a blob whose base64 payload fails to decode yields the empty
buffer, is classified `unclassified` for every owner, its address gets no
token or mint annotation (it is absent from the pre-label map, and any
final entry can only be a labeled one), and the model is total — no error
reaches the caller. -/
theorem malformed_blob_unclassified (enc : List Nat → String)
    (resolver : List String → Option (List (Option AccountInfo)))
    (metaResp : List String → Option (String → Option MetaPayload))
    (glabel : Option (String → Option String))
    (pubkeys : List String) (hnd : pubkeys.Nodup)
    (C : List String) (hC : C ∈ chunksOf 100 pubkeys)
    (p w : String)
    (hp : (p, some (AccountInfo.mk B64.bad w)) ∈ accountPairs resolver C) :
    (∀ o : String, classify o (base64ToBytes .bad) = .unclassified) ∧
    accountAction enc (some (AccountInfo.mk B64.bad w)) = .skip ∧
    lookupKey (preLabel enc resolver metaResp glabel pubkeys) p = none ∧
    (∀ e, lookupKey (fetchEnrichmentMap enc resolver metaResp glabel pubkeys) p = some e →
      e.etype = some .labeled) := by
  have hcls : ∀ o : String, classify o (base64ToBytes .bad) = .unclassified := by
    intro o
    unfold classify base64ToBytes
    split_ifs <;> simp_all
  have hact : accountAction enc (some (AccountInfo.mk B64.bad w)) = .skip := by
    simp only [accountAction]
    rw [hcls w]
  have hpre : lookupKey (preLabel enc resolver metaResp glabel pubkeys) p = none := by
    rw [lookupKey_preLabel enc resolver metaResp glabel pubkeys hnd C hC p _ hp, hact]
  have hmem : p ∈ pubkeys := by
    have h1 : p ∈ C := mem_accountPairs resolver C p _ hp
    rw [← chunksOf_flatten 100 (by norm_num) pubkeys]
    exact List.mem_flatten.mpr ⟨C, hC, h1⟩
  refine ⟨hcls, hact, hpre, ?_⟩
  intro e he
  unfold fetchEnrichmentMap at he
  rw [if_neg (List.ne_nil_of_mem hmem)] at he
  cases glabel with
  | none =>
    simp only [labelPass] at he
    rw [hpre] at he
    exact absurd he (by simp)
  | some g =>
    simp only [labelPass] at he
    rw [lookupKey_labelFold_mem g pubkeys _ p hnd hmem, hpre] at he
    cases hgp : g p with
    | none =>
      simp only [labelOutcome, hgp] at he
      exact Option.noConfusion he
    | some lab =>
      by_cases hl : lab = ""
      · simp only [labelOutcome, hgp, if_pos hl] at he
        exact Option.noConfusion he
      · simp only [labelOutcome, hgp, if_neg hl] at he
        obtain rfl := Option.some.inj he
        rfl

/-- Witness for C9 at a concrete resolver returning a bad-base64 blob. -/
theorem malformed_blob_unclassified_witness :
    lookupKey (preLabel (fun _ => "M")
      (fun _ => some [some (AccountInfo.mk B64.bad "w")])
      (fun _ => none) none ["P"]) "P" = none :=
  (malformed_blob_unclassified (fun _ => "M")
    (fun _ => some [some (AccountInfo.mk B64.bad "w")])
    (fun _ => none) none ["P"] (by decide) ["P"] (by decide) "P" "w" (by decide)).2.2.1

/-! ## Membership decompositions (claims C7, C10) -/
theorem mem_storeBatch (f : String → Option MetaPayload) :
    ∀ (batch : List String) (mim : List (String × MintInfo)) (k : String) (inf : MintInfo),
      (k, inf) ∈ storeBatch f mim batch →
      (k, inf) ∈ mim ∨ ∃ meta, inf = storeMeta k meta
  | [], _, _, _, h => Or.inl h
  | q :: rest, mim, k, inf, h => by
    simp only [storeBatch, List.foldl_cons] at h
    cases hfq : f q with
    | none =>
      rw [hfq] at h
      exact mem_storeBatch f rest mim k inf h
    | some meta =>
      rw [hfq] at h
      rcases mem_storeBatch f rest _ k inf h with h2 | h2
      · rcases mem_mapSet mim q (storeMeta q meta) k inf h2 with h3 | ⟨rfl, rfl⟩
        · exact Or.inl h3
        · exact Or.inr ⟨meta, rfl⟩
      · exact Or.inr h2

theorem mem_foldBatches (metaResp : List String → Option (String → Option MetaPayload)) :
    ∀ (CS : List (List String)) (mim : List (String × MintInfo)) (k : String)
      (inf : MintInfo),
      (k, inf) ∈ CS.foldl (applyBatch metaResp) mim →
      (k, inf) ∈ mim ∨ ∃ meta, inf = storeMeta k meta
  | [], _, _, _, h => Or.inl h
  | C0 :: rest, mim, k, inf, h => by
    simp only [List.foldl_cons] at h
    rcases mem_foldBatches metaResp rest _ k inf h with h2 | h2
    · unfold applyBatch at h2
      cases hresp : metaResp C0 with
      | none =>
        rw [hresp] at h2
        exact Or.inl h2
      | some f =>
        rw [hresp] at h2
        exact mem_storeBatch f C0 mim k inf h2
    · exact Or.inr h2

theorem fetchMintInfo_icon (metaResp : List String → Option (String → Option MetaPayload))
    (mints : List String) :
    ∀ (k : String) (inf : MintInfo), (k, inf) ∈ fetchMintInfo metaResp mints →
      inf.logoURI = iconUrl k := by
  intro k inf h
  rcases mem_foldBatches metaResp (chunksOf 50 mints) [] k inf h with h2 | ⟨meta, rfl⟩
  · simp at h2
  · rfl

theorem lookupInfo_icon (mim : List (String × MintInfo))
    (hmim : ∀ k inf, (k, inf) ∈ mim → inf.logoURI = iconUrl k) (mnt : String) :
    (lookupInfo mim mnt).logoURI = iconUrl mnt := by
  unfold lookupInfo
  cases hl : lookupKey mim mnt with
  | none => rfl
  | some inf => exact hmim mnt inf (mem_of_lookupKey mim mnt inf hl)

theorem mem_enrichTokens (glabel : Option (String → Option String))
    (mim : List (String × MintInfo)) :
    ∀ (tas : List TokenAcc) (m : EMap) (p : String) (e : Enriched),
      (p, e) ∈ enrichTokens glabel mim m tas →
      (p, e) ∈ m ∨ ∃ ta : TokenAcc, ta ∈ tas ∧ p = ta.pubkey ∧
        e = tokenEntry ta.pubkey ta.mint ta.amount (lookupInfo mim ta.mint)
          (glabelOf glabel ta.pubkey)
  | [], _, _, _, h => Or.inl h
  | ta :: rest, m, p, e, h => by
    simp only [enrichTokens, List.foldl_cons] at h
    rcases mem_enrichTokens glabel mim rest _ p e h with h2 | ⟨ta2, hta2, h31, h32⟩
    · rcases mem_mapSet _ _ _ p e h2 with h3 | h3
      · exact Or.inl h3
      · exact Or.inr ⟨ta, List.mem_cons_self _ _, h3.1, h3.2⟩
    · exact Or.inr ⟨ta2, List.mem_cons_of_mem _ hta2, h31, h32⟩

theorem mem_enrichMints (glabel : Option (String → Option String))
    (mim : List (String × MintInfo)) :
    ∀ (mas : List String) (m : EMap) (p : String) (e : Enriched),
      (p, e) ∈ enrichMints glabel mim m mas →
      (p, e) ∈ m ∨ ∃ mp, mp ∈ mas ∧ p = mp ∧
        e = mintEntry mp (lookupInfo mim mp) (glabelOf glabel mp)
  | [], _, _, _, h => Or.inl h
  | mp :: rest, m, p, e, h => by
    simp only [enrichMints, List.foldl_cons] at h
    rcases mem_enrichMints glabel mim rest _ p e h with h2 | ⟨mp2, hmp2, h31, h32⟩
    · rcases mem_mapSet _ _ _ p e h2 with h3 | h3
      · exact Or.inl h3
      · exact Or.inr ⟨mp, List.mem_cons_self _ _, h3.1, h3.2⟩
    · exact Or.inr ⟨mp2, List.mem_cons_of_mem _ hmp2, h31, h32⟩

theorem mem_processChunk (enc : List Nat → String)
    (resolver : List String → Option (List (Option AccountInfo)))
    (metaResp : List String → Option (String → Option MetaPayload))
    (glabel : Option (String → Option String))
    (m : EMap) (chunk : List String) (p : String) (e : Enriched)
    (h : (p, e) ∈ processChunk enc resolver metaResp glabel m chunk) :
    (p, e) ∈ m ∨
    (p ∈ chunk ∧ e.etype = some .token ∧
      ∃ mnt, e.mint = some mnt ∧ e.logoURI = some (iconUrl mnt)) := by
  simp only [processChunk] at h
  split at h
  · exact Or.inl h
  · rcases mem_enrichMints _ _ _ _ p e h with h2 | ⟨mp, hmp, hpmp, hemp⟩
    · rcases mem_enrichTokens _ _ _ _ p e h2 with h3 | ⟨ta, hta, rfl, rfl⟩
      · exact Or.inl h3
      · right
        refine ⟨?_, rfl, ta.mint, rfl, ?_⟩
        · refine (accountPairs_fst_sublist resolver chunk).subset
            ((tokensOf_pubkeys_sublist enc _).subset
              (List.mem_map_of_mem TokenAcc.pubkey ?_))
          rwa [classifyChunk_fst] at hta
        · show some (lookupInfo _ ta.mint).logoURI = some (iconUrl ta.mint)
          rw [lookupInfo_icon _ (fetchMintInfo_icon metaResp _) ta.mint]
    · right
      rw [hpmp, hemp]
      refine ⟨?_, rfl, mp, rfl, ?_⟩
      · refine (accountPairs_fst_sublist resolver chunk).subset
          ((mintsOf_sublist enc _).subset ?_)
        rwa [classifyChunk_snd] at hmp
      · show some (lookupInfo _ mp).logoURI = some (iconUrl mp)
        rw [lookupInfo_icon _ (fetchMintInfo_icon metaResp _) mp]

theorem mem_foldChunks (enc : List Nat → String)
    (resolver : List String → Option (List (Option AccountInfo)))
    (metaResp : List String → Option (String → Option MetaPayload))
    (glabel : Option (String → Option String)) :
    ∀ (CS : List (List String)) (m : EMap) (p : String) (e : Enriched),
      (p, e) ∈ CS.foldl (processChunk enc resolver metaResp glabel) m →
      (p, e) ∈ m ∨
      (p ∈ CS.flatten ∧ e.etype = some .token ∧
        ∃ mnt, e.mint = some mnt ∧ e.logoURI = some (iconUrl mnt))
  | [], _, _, _, h => Or.inl h
  | C0 :: rest, m, p, e, h => by
    simp only [List.foldl_cons] at h
    rcases mem_foldChunks enc resolver metaResp glabel rest _ p e h with h2 | ⟨h2, h3⟩
    · rcases mem_processChunk enc resolver metaResp glabel m C0 p e h2 with h3 | ⟨h3, h4⟩
      · exact Or.inl h3
      · exact Or.inr ⟨by
          simp only [List.flatten_cons, List.mem_append]
          exact Or.inl h3, h4⟩
    · exact Or.inr ⟨by
        simp only [List.flatten_cons, List.mem_append]
        exact Or.inr h2, h3⟩

theorem mem_labelStep (g : String → Option String) (m : EMap) (q p : String) (e : Enriched)
    (h : (p, e) ∈ labelStep g m q) :
    (p, e) ∈ m ∨ (p = q ∧ e.etype = some .labeled) ∨
    (∃ e0, (p, e0) ∈ m ∧ e.etype = e0.etype ∧ e.mint = e0.mint ∧
      e.logoURI = e0.logoURI) := by
  cases hcur : lookupKey m q with
  | none =>
    cases hgq : g q with
    | none =>
      rw [show labelStep g m q = m from by simp [labelStep, hcur, hgq]] at h
      exact Or.inl h
    | some lab =>
      by_cases hl : lab = ""
      · rw [show labelStep g m q = m from by simp [labelStep, hcur, hgq, hl]] at h
        exact Or.inl h
      · rw [show labelStep g m q = mapSet m q (labeledEntry q lab) from by
          simp [labelStep, hcur, hgq, hl]] at h
        rcases mem_mapSet m q (labeledEntry q lab) p e h with h2 | ⟨hpq, he⟩
        · exact Or.inl h2
        · rw [hpq, he]
          exact Or.inr (Or.inl ⟨rfl, rfl⟩)
  | some e1 =>
    cases hgq : g q with
    | none =>
      rw [show labelStep g m q = m from by simp [labelStep, hcur, hgq]] at h
      exact Or.inl h
    | some lab =>
      by_cases hl : lab = ""
      · rw [show labelStep g m q = m from by simp [labelStep, hcur, hgq, hl]] at h
        exact Or.inl h
      · rw [show labelStep g m q = mapSet m q { e1 with label := some lab } from by
          simp [labelStep, hcur, hgq, hl]] at h
        rcases mem_mapSet m q _ p e h with h2 | ⟨hpq, he⟩
        · exact Or.inl h2
        · rw [hpq, he]
          exact Or.inr (Or.inr ⟨e1, mem_of_lookupKey m q e1 hcur, rfl, rfl, rfl⟩)

theorem mem_labelFold (g : String → Option String) :
    ∀ (l : List String) (m : EMap) (p : String) (e : Enriched),
      (p, e) ∈ l.foldl (labelStep g) m →
      (p, e) ∈ m ∨ (p ∈ l ∧ e.etype = some .labeled) ∨
      (∃ e0, (p, e0) ∈ m ∧ e.etype = e0.etype ∧ e.mint = e0.mint ∧
        e.logoURI = e0.logoURI)
  | [], _, _, _, h => Or.inl h
  | q :: rest, m, p, e, h => by
    simp only [List.foldl_cons] at h
    rcases mem_labelFold g rest _ p e h with h2 | ⟨h2, h3⟩ | ⟨e0, h2, h31, h32, h33⟩
    · rcases mem_labelStep g m q p e h2 with h3 | ⟨rfl, h4⟩ | ⟨e0, h4, h51, h52, h53⟩
      · exact Or.inl h3
      · exact Or.inr (Or.inl ⟨List.mem_cons_self _ _, h4⟩)
      · exact Or.inr (Or.inr ⟨e0, h4, h51, h52, h53⟩)
    · exact Or.inr (Or.inl ⟨List.mem_cons_of_mem _ h2, h3⟩)
    · rcases mem_labelStep g m q p e0 h2 with h4 | ⟨rfl, h5⟩ | ⟨e00, h5, h61, h62, h63⟩
      · exact Or.inr (Or.inr ⟨e0, h4, h31, h32, h33⟩)
      · exact Or.inr (Or.inl ⟨List.mem_cons_self _ _, h31.trans h5⟩)
      · exact Or.inr (Or.inr ⟨e00, h5, h31.trans h61, h32.trans h62, h33.trans h63⟩)

/-- C10: the enrichment map mentions only input addresses — every key of
the returned association list is a member of the supplied address list —
and an empty input yields an empty map. -/
theorem enrichment_map_keys (enc : List Nat → String)
    (resolver : List String → Option (List (Option AccountInfo)))
    (metaResp : List String → Option (String → Option MetaPayload))
    (glabel : Option (String → Option String)) (pubkeys : List String) :
    (∀ p e, (p, e) ∈ fetchEnrichmentMap enc resolver metaResp glabel pubkeys →
      p ∈ pubkeys) ∧
    fetchEnrichmentMap enc resolver metaResp glabel [] = [] := by
  constructor
  · intro p e h
    unfold fetchEnrichmentMap at h
    by_cases hnil : pubkeys = []
    · rw [if_pos hnil] at h
      simp at h
    · rw [if_neg hnil] at h
      have hpre : ∀ (p2 : String) (e2 : Enriched),
          (p2, e2) ∈ preLabel enc resolver metaResp glabel pubkeys → p2 ∈ pubkeys := by
        intro p2 e2 h2
        unfold preLabel at h2
        rcases mem_foldChunks enc resolver metaResp glabel (chunksOf 100 pubkeys) [] p2 e2 h2
          with h3 | ⟨h3, -⟩
        · simp at h3
        · rw [chunksOf_flatten 100 (by norm_num) pubkeys] at h3
          exact h3
      cases glabel with
      | none =>
        simp only [labelPass] at h
        exact hpre p e h
      | some g =>
        simp only [labelPass] at h
        rcases mem_labelFold g pubkeys _ p e h with h2 | ⟨h2, -⟩ | ⟨e0, h2, -⟩
        · exact hpre p e h2
        · exact h2
        · exact hpre p e0 h2
  · rfl

/-- Witness for C10: the empty input set yields an empty map. -/
theorem enrichment_map_keys_witness :
    fetchEnrichmentMap (fun _ => "M") (fun _ => none) (fun _ => none) none [] = [] :=
  (enrichment_map_keys (fun _ => "M") (fun _ => none) (fun _ => none) none []).2

/-! ## Metadata defaults on the final map (claim C7) -/
theorem final_entry_fields (enc : List Nat → String)
    (resolver : List String → Option (List (Option AccountInfo)))
    (metaResp : List String → Option (String → Option MetaPayload))
    (glabel : Option (String → Option String))
    (pubkeys : List String) (hnd : pubkeys.Nodup) (p : String) (hp : p ∈ pubkeys)
    (e : Enriched)
    (hpre : lookupKey (preLabel enc resolver metaResp glabel pubkeys) p = some e) :
    ∃ e2, lookupKey (fetchEnrichmentMap enc resolver metaResp glabel pubkeys) p = some e2 ∧
      e2.etype = e.etype ∧ e2.mint = e.mint ∧ e2.symbol = e.symbol ∧
      e2.decimals = e.decimals ∧ e2.logoURI = e.logoURI ∧ e2.name = e.name := by
  rw [lookupKey_fetchEnrichmentMap enc resolver metaResp glabel pubkeys hnd p hp]
  cases glabel with
  | none => exact ⟨e, by rw [hpre], rfl, rfl, rfl, rfl, rfl, rfl⟩
  | some g =>
    rw [hpre]
    cases hgp : g p with
    | none =>
      exact ⟨e, by simp [labelOutcome, hgp], rfl, rfl, rfl, rfl, rfl, rfl⟩
    | some lab =>
      by_cases hl : lab = ""
      · exact ⟨e, by simp [labelOutcome, hgp, hl], rfl, rfl, rfl, rfl, rfl, rfl⟩
      · exact ⟨{ e with label := some lab }, by simp [labelOutcome, hgp, hl],
          rfl, rfl, rfl, rfl, rfl, rfl⟩

theorem preLabel_token_icon (enc : List Nat → String)
    (resolver : List String → Option (List (Option AccountInfo)))
    (metaResp : List String → Option (String → Option MetaPayload))
    (glabel : Option (String → Option String)) (pubkeys : List String) :
    ∀ p e, (p, e) ∈ preLabel enc resolver metaResp glabel pubkeys →
      e.etype = some EType.token →
      ∃ mnt, e.mint = some mnt ∧ e.logoURI = some (iconUrl mnt) := by
  intro p e h _
  unfold preLabel at h
  rcases mem_foldChunks enc resolver metaResp glabel (chunksOf 100 pubkeys) [] p e h
    with h2 | ⟨-, -, hmnt⟩
  · simp at h2
  · exact hmnt

/-- C7 (amended): every token-typed annotation's iconUrl is the fixed icon
base followed by `/<mint>.png`, derived from the mint identifier alone
regardless of the metadata response; a classified account whose mint is
absent from its batch's response — or whose batch failed — gets symbol
"Unknown" and decimals 0; and a mint present in the response takes symbol
(defaulted to "Unknown" when missing or empty), decimals (defaulted to 0
when missing) and name from the payload.  The empty-string default is the
amendment forced by the counterexample. -/
theorem token_metadata_defaults (enc : List Nat → String)
    (resolver : List String → Option (List (Option AccountInfo)))
    (metaResp : List String → Option (String → Option MetaPayload))
    (glabel : Option (String → Option String))
    (pubkeys : List String) (hnd : pubkeys.Nodup) :
    (∀ p e, (p, e) ∈ fetchEnrichmentMap enc resolver metaResp glabel pubkeys →
      e.etype = some EType.token →
      ∃ mnt, e.mint = some mnt ∧ e.logoURI = some (iconUrl mnt)) ∧
    (∀ C, C ∈ chunksOf 100 pubkeys →
      ∀ p info, (p, info) ∈ accountPairs resolver C →
      ∀ mnt amt, accountAction enc info = AccountAction.tokenAcct mnt amt →
      ∀ B, B ∈ chunksOf 50 (classifyChunk enc (accountPairs resolver C)).2.2 → mnt ∈ B →
      (lookupKey (fetchEnrichmentMap enc resolver metaResp glabel pubkeys) p).map
          (fun e => e.etype) = some (some EType.token) ∧
      (lookupKey (fetchEnrichmentMap enc resolver metaResp glabel pubkeys) p).map
          (fun e => e.mint) = some (some mnt) ∧
      (lookupKey (fetchEnrichmentMap enc resolver metaResp glabel pubkeys) p).map
          (fun e => e.logoURI) = some (some (iconUrl mnt)) ∧
      (metaResp B = none →
        (lookupKey (fetchEnrichmentMap enc resolver metaResp glabel pubkeys) p).map
            (fun e => e.symbol) = some (some "Unknown") ∧
        (lookupKey (fetchEnrichmentMap enc resolver metaResp glabel pubkeys) p).map
            (fun e => e.decimals) = some (some 0)) ∧
      (∀ f, metaResp B = some f →
        (f mnt = none →
          (lookupKey (fetchEnrichmentMap enc resolver metaResp glabel pubkeys) p).map
              (fun e => e.symbol) = some (some "Unknown") ∧
          (lookupKey (fetchEnrichmentMap enc resolver metaResp glabel pubkeys) p).map
              (fun e => e.decimals) = some (some 0)) ∧
        (∀ meta, f mnt = some meta →
          (lookupKey (fetchEnrichmentMap enc resolver metaResp glabel pubkeys) p).map
              (fun e => e.symbol) =
            some (some (match meta.symbol with
              | some s => if s = "" then "Unknown" else s
              | none => "Unknown")) ∧
          (lookupKey (fetchEnrichmentMap enc resolver metaResp glabel pubkeys) p).map
              (fun e => e.decimals) = some (some (meta.decimals.getD 0)) ∧
          (lookupKey (fetchEnrichmentMap enc resolver metaResp glabel pubkeys) p).map
              (fun e => e.name) = some meta.name))) ∧
    (∀ C, C ∈ chunksOf 100 pubkeys →
      ∀ p info, (p, info) ∈ accountPairs resolver C →
      accountAction enc info = AccountAction.mintAcct →
      ∀ B, B ∈ chunksOf 50 (classifyChunk enc (accountPairs resolver C)).2.2 → p ∈ B →
      (lookupKey (fetchEnrichmentMap enc resolver metaResp glabel pubkeys) p).map
          (fun e => e.etype) = some (some EType.token) ∧
      (lookupKey (fetchEnrichmentMap enc resolver metaResp glabel pubkeys) p).map
          (fun e => e.mint) = some (some p) ∧
      (lookupKey (fetchEnrichmentMap enc resolver metaResp glabel pubkeys) p).map
          (fun e => e.logoURI) = some (some (iconUrl p)) ∧
      (metaResp B = none →
        (lookupKey (fetchEnrichmentMap enc resolver metaResp glabel pubkeys) p).map
            (fun e => e.symbol) = some (some "Unknown") ∧
        (lookupKey (fetchEnrichmentMap enc resolver metaResp glabel pubkeys) p).map
            (fun e => e.decimals) = some (some 0)) ∧
      (∀ f, metaResp B = some f →
        (f p = none →
          (lookupKey (fetchEnrichmentMap enc resolver metaResp glabel pubkeys) p).map
              (fun e => e.symbol) = some (some "Unknown") ∧
          (lookupKey (fetchEnrichmentMap enc resolver metaResp glabel pubkeys) p).map
              (fun e => e.decimals) = some (some 0)) ∧
        (∀ meta, f p = some meta →
          (lookupKey (fetchEnrichmentMap enc resolver metaResp glabel pubkeys) p).map
              (fun e => e.symbol) =
            some (some (match meta.symbol with
              | some s => if s = "" then "Unknown" else s
              | none => "Unknown")) ∧
          (lookupKey (fetchEnrichmentMap enc resolver metaResp glabel pubkeys) p).map
              (fun e => e.decimals) = some (some (meta.decimals.getD 0)) ∧
          (lookupKey (fetchEnrichmentMap enc resolver metaResp glabel pubkeys) p).map
              (fun e => e.name) = some meta.name))) := by
  refine ⟨?_, ?_, ?_⟩
  · intro p e h het
    unfold fetchEnrichmentMap at h
    by_cases hnil : pubkeys = []
    · rw [if_pos hnil] at h
      simp at h
    · rw [if_neg hnil] at h
      cases glabel with
      | none =>
        simp only [labelPass] at h
        exact preLabel_token_icon enc resolver metaResp none pubkeys p e h het
      | some g =>
        simp only [labelPass] at h
        rcases mem_labelFold g pubkeys _ p e h with h2 | ⟨-, h3⟩ | ⟨e0, h2, h31, h32, h33⟩
        · exact preLabel_token_icon enc resolver metaResp (some g) pubkeys p e h2 het
        · rw [het] at h3
          exact absurd h3 (by simp)
        · obtain ⟨mnt, hm1, hm2⟩ := preLabel_token_icon enc resolver metaResp (some g)
            pubkeys p e0 h2 (h31.symm.trans het)
          exact ⟨mnt, h32.trans hm1, h33.trans hm2⟩
  · intro C hC p info hp mnt amt hact B hB hmB
    have hpre := lookupKey_preLabel enc resolver metaResp glabel pubkeys hnd C hC p info hp
    rw [hact] at hpre
    have hmem : p ∈ pubkeys := by
      rw [← chunksOf_flatten 100 (by norm_num) pubkeys]
      exact List.mem_flatten.mpr ⟨C, hC, mem_accountPairs resolver C p info hp⟩
    have hmlook : lookupKey (fetchMintInfo metaResp
        (classifyChunk enc (accountPairs resolver C)).2.2) mnt =
        match metaResp B with
        | some f => Option.map (storeMeta mnt) (f mnt)
        | none => none := by
      unfold fetchMintInfo
      refine lookupKey_foldBatches metaResp _ [] B mnt ?_ hB hmB rfl
      rw [chunksOf_flatten 50 (by norm_num)]
      exact classifyChunk_uniq_nodup enc _
    obtain ⟨e2, he2, hety, hmint, hsym, hdec, hlogo, hname⟩ :=
      final_entry_fields enc resolver metaResp glabel pubkeys hnd p hmem _ hpre
    refine ⟨?_, ?_, ?_, ?_, ?_⟩
    · rw [he2]
      show some e2.etype = some (some EType.token)
      rw [hety]
      rfl
    · rw [he2]
      show some e2.mint = some (some mnt)
      rw [hmint]
      rfl
    · rw [he2]
      show some e2.logoURI = some (some (iconUrl mnt))
      rw [hlogo]
      show some (some (lookupInfo _ mnt).logoURI) = some (some (iconUrl mnt))
      rw [lookupInfo_icon _ (fetchMintInfo_icon metaResp _) mnt]
    · intro hrespB
      have hl0 : lookupKey (fetchMintInfo metaResp
          (classifyChunk enc (accountPairs resolver C)).2.2) mnt = none := by
        rw [hmlook, hrespB]
      have hinfo : lookupInfo (fetchMintInfo metaResp
          (classifyChunk enc (accountPairs resolver C)).2.2) mnt = defaultInfo mnt := by
        unfold lookupInfo
        rw [hl0]
        rfl
      constructor
      · rw [he2]
        show some e2.symbol = some (some "Unknown")
        rw [hsym]
        show some (some (lookupInfo _ mnt).symbol) = some (some "Unknown")
        rw [hinfo]
        rfl
      · rw [he2]
        show some e2.decimals = some (some 0)
        rw [hdec]
        show some (some (lookupInfo _ mnt).decimals) = some (some 0)
        rw [hinfo]
        rfl
    · intro f hrespf
      constructor
      · intro hfmnt
        have hl0 : lookupKey (fetchMintInfo metaResp
            (classifyChunk enc (accountPairs resolver C)).2.2) mnt = none := by
          rw [hmlook, hrespf]
          show Option.map (storeMeta mnt) (f mnt) = none
          rw [hfmnt]
          rfl
        have hinfo : lookupInfo (fetchMintInfo metaResp
            (classifyChunk enc (accountPairs resolver C)).2.2) mnt = defaultInfo mnt := by
          unfold lookupInfo
          rw [hl0]
          rfl
        constructor
        · rw [he2]
          show some e2.symbol = some (some "Unknown")
          rw [hsym]
          show some (some (lookupInfo _ mnt).symbol) = some (some "Unknown")
          rw [hinfo]
          rfl
        · rw [he2]
          show some e2.decimals = some (some 0)
          rw [hdec]
          show some (some (lookupInfo _ mnt).decimals) = some (some 0)
          rw [hinfo]
          rfl
      · intro meta hfmnt
        have hl1 : lookupKey (fetchMintInfo metaResp
            (classifyChunk enc (accountPairs resolver C)).2.2) mnt =
            some (storeMeta mnt meta) := by
          rw [hmlook, hrespf]
          show Option.map (storeMeta mnt) (f mnt) = some (storeMeta mnt meta)
          rw [hfmnt]
          rfl
        have hinfo : lookupInfo (fetchMintInfo metaResp
            (classifyChunk enc (accountPairs resolver C)).2.2) mnt =
            storeMeta mnt meta := by
          unfold lookupInfo
          rw [hl1]
          rfl
        refine ⟨?_, ?_, ?_⟩
        · rw [he2]
          show some e2.symbol = _
          rw [hsym]
          show some (some (lookupInfo _ mnt).symbol) = _
          rw [hinfo]
          rfl
        · rw [he2]
          show some e2.decimals = _
          rw [hdec]
          show some (some (lookupInfo _ mnt).decimals) = _
          rw [hinfo]
          rfl
        · rw [he2]
          show some e2.name = _
          rw [hname]
          show some (lookupInfo _ mnt).name = _
          rw [hinfo]
          rfl
  · intro C hC p info hp hact B hB hmB
    have hpre := lookupKey_preLabel enc resolver metaResp glabel pubkeys hnd C hC p info hp
    rw [hact] at hpre
    have hmem : p ∈ pubkeys := by
      rw [← chunksOf_flatten 100 (by norm_num) pubkeys]
      exact List.mem_flatten.mpr ⟨C, hC, mem_accountPairs resolver C p info hp⟩
    have hmlook : lookupKey (fetchMintInfo metaResp
        (classifyChunk enc (accountPairs resolver C)).2.2) p =
        match metaResp B with
        | some f => Option.map (storeMeta p) (f p)
        | none => none := by
      unfold fetchMintInfo
      refine lookupKey_foldBatches metaResp _ [] B p ?_ hB hmB rfl
      rw [chunksOf_flatten 50 (by norm_num)]
      exact classifyChunk_uniq_nodup enc _
    obtain ⟨e2, he2, hety, hmint, hsym, hdec, hlogo, hname⟩ :=
      final_entry_fields enc resolver metaResp glabel pubkeys hnd p hmem _ hpre
    refine ⟨?_, ?_, ?_, ?_, ?_⟩
    · rw [he2]
      show some e2.etype = some (some EType.token)
      rw [hety]
      rfl
    · rw [he2]
      show some e2.mint = some (some p)
      rw [hmint]
      rfl
    · rw [he2]
      show some e2.logoURI = some (some (iconUrl p))
      rw [hlogo]
      show some (some (lookupInfo _ p).logoURI) = some (some (iconUrl p))
      rw [lookupInfo_icon _ (fetchMintInfo_icon metaResp _) p]
    · intro hrespB
      have hl0 : lookupKey (fetchMintInfo metaResp
          (classifyChunk enc (accountPairs resolver C)).2.2) p = none := by
        rw [hmlook, hrespB]
      have hinfo : lookupInfo (fetchMintInfo metaResp
          (classifyChunk enc (accountPairs resolver C)).2.2) p = defaultInfo p := by
        unfold lookupInfo
        rw [hl0]
        rfl
      constructor
      · rw [he2]
        show some e2.symbol = some (some "Unknown")
        rw [hsym]
        show some (some (lookupInfo _ p).symbol) = some (some "Unknown")
        rw [hinfo]
        rfl
      · rw [he2]
        show some e2.decimals = some (some 0)
        rw [hdec]
        show some (some (lookupInfo _ p).decimals) = some (some 0)
        rw [hinfo]
        rfl
    · intro f hrespf
      constructor
      · intro hfp
        have hl0 : lookupKey (fetchMintInfo metaResp
            (classifyChunk enc (accountPairs resolver C)).2.2) p = none := by
          rw [hmlook, hrespf]
          show Option.map (storeMeta p) (f p) = none
          rw [hfp]
          rfl
        have hinfo : lookupInfo (fetchMintInfo metaResp
            (classifyChunk enc (accountPairs resolver C)).2.2) p = defaultInfo p := by
          unfold lookupInfo
          rw [hl0]
          rfl
        constructor
        · rw [he2]
          show some e2.symbol = some (some "Unknown")
          rw [hsym]
          show some (some (lookupInfo _ p).symbol) = some (some "Unknown")
          rw [hinfo]
          rfl
        · rw [he2]
          show some e2.decimals = some (some 0)
          rw [hdec]
          show some (some (lookupInfo _ p).decimals) = some (some 0)
          rw [hinfo]
          rfl
      · intro meta hfp
        have hl1 : lookupKey (fetchMintInfo metaResp
            (classifyChunk enc (accountPairs resolver C)).2.2) p =
            some (storeMeta p meta) := by
          rw [hmlook, hrespf]
          show Option.map (storeMeta p) (f p) = some (storeMeta p meta)
          rw [hfp]
          rfl
        have hinfo : lookupInfo (fetchMintInfo metaResp
            (classifyChunk enc (accountPairs resolver C)).2.2) p =
            storeMeta p meta := by
          unfold lookupInfo
          rw [hl1]
          rfl
        refine ⟨?_, ?_, ?_⟩
        · rw [he2]
          show some e2.symbol = _
          rw [hsym]
          show some (some (lookupInfo _ p).symbol) = _
          rw [hinfo]
          rfl
        · rw [he2]
          show some e2.decimals = _
          rw [hdec]
          show some (some (lookupInfo _ p).decimals) = _
          rw [hinfo]
          rfl
        · rw [he2]
          show some e2.name = _
          rw [hname]
          show some (lookupInfo _ p).name = _
          rw [hinfo]
          rfl

/-- Witness for C7 at a concrete run with a successful metadata batch. -/
theorem token_metadata_defaults_witness :
    (lookupKey (fetchEnrichmentMap encM resolverTok metaRespTok none ["P"]) "P").map
      (fun e => e.symbol) = some (some "TOK") := by
  have h := (token_metadata_defaults encM resolverTok metaRespTok none ["P"]
    (by decide)).2.1 ["P"] (by decide) "P"
    (some (AccountInfo.mk (.ok bytes165) TOKEN_PROGRAM_ID)) (by decide)
    "M" 0 (by decide) ["M"] (by decide) (by decide)
  have h3 := ((h.2.2.2.2 fTok rfl).2 ⟨some "TOK", some 2, some "Token"⟩ (by decide)).1
  simpa using h3

/-- C7 counterexample: the mint is present in the successful response with
the (empty) symbol "", yet the resulting annotation's symbol is "Unknown",
not the payload's symbol — `meta.symbol || "Unknown"` treats the empty
string as missing. -/
theorem token_metadata_empty_symbol_counterexample :
    fEmptySym "M" = some ⟨some "", some 0, none⟩ ∧
    (lookupKey (fetchEnrichmentMap encM resolverTok metaRespEmptySym none ["P"]) "P").map
      (fun e => e.symbol) = some (some "Unknown") ∧
    ¬ (lookupKey (fetchEnrichmentMap encM resolverTok metaRespEmptySym none ["P"]) "P").map
      (fun e => e.symbol) = some (some "") :=
  ⟨by decide, by decide, by decide⟩
